import Mathlib

/-!
Shallow embedding of the portfolio tracker's core engines:
* `calculatePositions` — the Position Deriver (src/services/positions.ts),
* `closedTrades` — the Realized P&L Engine / FIFO matcher
  (src/components/ClosedOperations.tsx),
* `getExchangeRate` / `getFallbackRate` — the Forex Converter
  (src/utils/forex.ts),
* `calculateMetrics`' max-drawdown loop (src/utils/metrics.ts).

Numbers are modelled as rationals (`ℚ`); note `x / 0 = 0` in `ℚ` where
JavaScript produces `Infinity`/`NaN`.  Calendar dates are modelled by an
integer key (the value `new Date(s).getTime()` used by every comparator in
the source); strings built from dates use `toString` of that key.
Firestore subscriptions are elided: each engine is the pure function of the
full operation list that the source recomputes on every snapshot.
-/

/-- Operation type: buy (`ADD`) or sell (`REMOVE`). -/
inductive OpType where
  | ADD : OpType
  | REMOVE : OpType
deriving DecidableEq, Repr

/-- A ledger entry (`Operation` in src/services/operations.ts).  `priceInUSD`
and `currency` are the optional legacy-compatibility fields read through
`op.priceInUSD ?? op.price` and `op.currency ?? 'USD'`; `timestamp` is the
server creation timestamp (used only by the store's `orderBy`, never by the
replay comparators). -/
structure Operation where
  id : String
  type : OpType
  ticker : String
  quantity : ℚ
  price : ℚ
  date : ℤ
  timestamp : ℤ
  broker : Option String
  priceInUSD : Option ℚ
  currency : Option String
deriving DecidableEq, Repr

/-- Insert an operation into a date-ascending sorted list, after all entries
whose date key is strictly smaller and before the rest; equal dates keep the
incoming element after previously inserted ones is avoided by construction:
this is the standard stable insertion, matching the (stable, ES2019)
`[...data].sort((a, b) => dateA - dateB)` of both engines. -/
def insertByDate (op : Operation) : List Operation → List Operation
  | [] => [op]
  | o :: rest => if o.date < op.date then o :: insertByDate op rest else op :: o :: rest

/-- Stable sort of the operation log by ascending date key, the sort both the
Position Deriver and the Realized P&L Engine apply before replaying. -/
def sortByDate : List Operation → List Operation
  | [] => []
  | op :: rest => insertByDate op (sortByDate rest)

/-- A derived position (`Position` in src/services/positions.ts). -/
structure Position where
  id : String
  ticker : String
  quantity : ℚ
  buyPrice : ℚ
  buyDate : ℤ
  broker : Option String
deriving DecidableEq, Repr

/-- The broker key `op.broker || 'Unassigned'`. -/
def brokerKey (op : Operation) : String :=
  op.broker.getD "Unassigned"

/-- The position-map key `` `${op.ticker}-${brokerKey}` ``. -/
def posKey (op : Operation) : String :=
  op.ticker ++ "-" ++ brokerKey op

/-- The zero-quantity position initialised when a key is first seen
(src/services/positions.ts lines 38-45). -/
def initPos (op : Operation) : Position :=
  { id := posKey op
    ticker := op.ticker
    quantity := 0
    buyPrice := 0
    buyDate := op.date
    broker := op.broker }

/-- One operation applied to the position stored under its key: the ADD /
REMOVE branches of `calculatePositions` followed by the negative-quantity
clamp (src/services/positions.ts lines 50-69). -/
def stepPos (pos : Position) (op : Operation) : Position :=
  let pos :=
    match op.type with
    | OpType.ADD =>
      let totalCost := pos.quantity * pos.buyPrice + op.quantity * op.price
      let newQuantity := pos.quantity + op.quantity
      let pos := { pos with
                    buyPrice := if newQuantity > 0 then totalCost / newQuantity else 0
                    quantity := newQuantity }
      if pos.quantity = op.quantity then { pos with buyDate := op.date } else pos
    | OpType.REMOVE => { pos with quantity := pos.quantity - op.quantity }
  if pos.quantity < 0 then { pos with quantity := 0 } else pos

/-- The position map: an insertion-ordered association list, matching a JS
string-keyed `Record` (`Object.values` returns insertion order). -/
abbrev PosMap := List (String × Position)

/-- Key access `positionMap[key]`: first (and, by construction, only) entry stored
under a key. -/
def posLookup (m : PosMap) (k : String) : Option Position :=
  match m with
  | [] => none
  | e :: rest => if e.1 = k then some e.2 else posLookup rest k

/-- Process one operation against the position map: initialise the key if
absent, then apply `stepPos` to the entry at that key. -/
def applyOp (m : PosMap) (op : Operation) : PosMap :=
  let k := posKey op
  let m' := if (posLookup m k).isSome then m else m ++ [(k, initPos op)]
  m'.map (fun e => if e.1 = k then (e.1, stepPos e.2 op) else e)

/-- All derived positions (in map insertion order), before the active filter. -/
def calculatePositionsAll (operations : List Operation) : List Position :=
  (((sortByDate operations).foldl applyOp []).map Prod.snd)

/-- The Position Deriver `calculatePositions` (src/services/positions.ts):
sort by date, replay, return only active positions
(`filter(p => p.quantity > 0.000001)`). -/
def calculatePositions (operations : List Operation) : List Position :=
  (calculatePositionsAll operations).filter (fun p => p.quantity > 1/1000000)

/-- An open FIFO lot (the inventory entries of `closedTrades`,
src/components/ClosedOperations.tsx line 47). -/
structure Lot where
  quantity : ℚ
  price : ℚ
  priceUSD : ℚ
  currency : String
  date : ℤ
deriving DecidableEq, Repr

/-- A closed-trade record (`ClosedTrade`,
src/components/ClosedOperations.tsx lines 12-25). -/
structure ClosedTrade where
  id : String
  ticker : String
  openDate : ℤ
  closeDate : ℤ
  quantity : ℚ
  entryPrice : ℚ
  exitPrice : ℚ
  entryPriceUSD : ℚ
  exitPriceUSD : ℚ
  currency : String
  pnl : ℚ
  pnlPercent : ℚ
deriving DecidableEq, Repr

/-- The legacy default `op.priceInUSD ?? op.price`. -/
def opPriceUSD (op : Operation) : ℚ :=
  op.priceInUSD.getD op.price

/-- The full-consumption trade record pushed when `batch.quantity <=
quantityToClose` (src/components/ClosedOperations.tsx lines 75-96). -/
def fullTrade (op : Operation) (batch : Lot) : ClosedTrade :=
  let pnl := (opPriceUSD op - batch.priceUSD) * batch.quantity
  { id := op.id ++ "-" ++ toString batch.date
    ticker := op.ticker
    openDate := batch.date
    closeDate := op.date
    quantity := batch.quantity
    entryPrice := batch.price
    exitPrice := op.price
    entryPriceUSD := batch.priceUSD
    exitPriceUSD := opPriceUSD op
    currency := batch.currency
    pnl := pnl
    pnlPercent := pnl / (batch.priceUSD * batch.quantity) * 100 }

/-- The partial-consumption trade record pushed in the `else` branch
(src/components/ClosedOperations.tsx lines 97-118). -/
def partialTrade (op : Operation) (batch : Lot) (quantityToClose : ℚ) : ClosedTrade :=
  let pnl := (opPriceUSD op - batch.priceUSD) * quantityToClose
  { id := op.id ++ "-" ++ toString batch.date ++ "-partial"
    ticker := op.ticker
    openDate := batch.date
    closeDate := op.date
    quantity := quantityToClose
    entryPrice := batch.price
    exitPrice := op.price
    entryPriceUSD := batch.priceUSD
    exitPriceUSD := opPriceUSD op
    currency := batch.currency
    pnl := pnl
    pnlPercent := pnl / (batch.priceUSD * quantityToClose) * 100 }

/-- The FIFO-matching `while` loop of a REMOVE: consume lots from the head of
the ticker's queue while `quantityToClose > 0` and the queue is non-empty,
emitting a trade per matched lot; returns the emitted trades (in order) and
the remaining queue (src/components/ClosedOperations.tsx lines 72-120). -/
def fifoConsume (op : Operation) (quantityToClose : ℚ) :
    List Lot → List ClosedTrade × List Lot
  | [] => ([], [])
  | batch :: rest =>
    if quantityToClose > 0 then
      if batch.quantity ≤ quantityToClose then
        let r := fifoConsume op (quantityToClose - batch.quantity) rest
        (fullTrade op batch :: r.1, r.2)
      else
        ([partialTrade op batch quantityToClose],
          { batch with quantity := batch.quantity - quantityToClose } :: rest)
    else ([], batch :: rest)

/-- The lot pushed onto the ticker's queue by an ADD
(src/components/ClosedOperations.tsx lines 58-66). -/
def lotOf (op : Operation) : Lot :=
  { quantity := op.quantity
    price := op.price
    priceUSD := opPriceUSD op
    currency := op.currency.getD "USD"
    date := op.date }

/-- Per-ticker inventory state of the FIFO replay (`inventory` keyed by
`op.ticker`; a missing key reads as the empty queue). -/
abbrev Inventory := String → List Lot

/-- One operation applied to the FIFO replay state (accumulated trades and
per-ticker inventory). -/
def fifoStep (st : List ClosedTrade × Inventory) (op : Operation) :
    List ClosedTrade × Inventory :=
  match op.type with
  | OpType.ADD =>
    (st.1, fun t => if t = op.ticker then st.2 op.ticker ++ [lotOf op] else st.2 t)
  | OpType.REMOVE =>
    let r := fifoConsume op op.quantity (st.2 op.ticker)
    (st.1 ++ r.1, fun t => if t = op.ticker then r.2 else st.2 t)

/-- Insert a trade into a list sorted descending by close date, stably
(matching the stable `trades.sort((a, b) => dateB - dateA)`). -/
def insertByCloseDesc (tr : ClosedTrade) : List ClosedTrade → List ClosedTrade
  | [] => [tr]
  | o :: rest =>
    if o.closeDate > tr.closeDate then o :: insertByCloseDesc tr rest else tr :: o :: rest

/-- Stable sort of trades by descending close date (most recent first). -/
def sortTradesDesc : List ClosedTrade → List ClosedTrade
  | [] => []
  | tr :: rest => insertByCloseDesc tr (sortTradesDesc rest)

/-- The Realized P&L Engine (`closedTrades` in
src/components/ClosedOperations.tsx): sort the log ascending by date, replay
it through the per-ticker FIFO matcher, then present trades sorted by close
date descending. -/
def closedTrades (operations : List Operation) : List ClosedTrade :=
  sortTradesDesc (((sortByDate operations).foldl fifoStep ([], fun _ => [])).1)

/-- The static approximate-rate table `FALLBACK_RATES` of src/utils/forex.ts,
as a partial map from pair strings to rates. -/
def FALLBACK_RATES (pair : String) : Option ℚ :=
  if pair = "EURUSD" then some (108/100)
  else if pair = "GBPUSD" then some (127/100)
  else if pair = "CADUSD" then some (74/100)
  else if pair = "AUDUSD" then some (66/100)
  else if pair = "JPYUSD" then some (67/10000)
  else if pair = "CHFUSD" then some (112/100)
  else if pair = "CNYUSD" then some (14/100)
  else if pair = "HKDUSD" then some (13/100)
  else if pair = "SGDUSD" then some (75/100)
  else if pair = "MXNUSD" then some (58/1000)
  else if pair = "BRLUSD" then some (20/100)
  else if pair = "ARSUSD" then some (1/1000)
  else if pair = "USDEUR" then some (93/100)
  else if pair = "USDGBP" then some (79/100)
  else if pair = "USDCAD" then some (135/100)
  else if pair = "USDAUD" then some (152/100)
  else if pair = "USDJPY" then some (1495/10)
  else if pair = "USDCHF" then some (89/100)
  else if pair = "USDCNY" then some (715/100)
  else if pair = "USDHKD" then some (782/100)
  else if pair = "USDSGD" then some (134/100)
  else if pair = "USDMXN" then some (172/10)
  else if pair = "USDBRL" then some (497/100)
  else if pair = "USDARS" then some 850
  else none

/-- The function `getFallbackRate` (src/utils/forex.ts lines 199-220): try the direct
pair, then the inverse (`1/rate`), then triangulate through USD with `|| 1`
defaults, else 1.  (Every table entry is non-zero, so JS truthiness of a
table hit coincides with presence.) -/
def getFallbackRate (from_ toC : String) : ℚ :=
  match FALLBACK_RATES (from_ ++ toC) with
  | some r => r
  | none =>
    match FALLBACK_RATES (toC ++ from_) with
    | some r => 1 / r
    | none =>
      if from_ ≠ "USD" ∧ toC ≠ "USD" then
        (FALLBACK_RATES (from_ ++ "USD")).getD 1 * (FALLBACK_RATES ("USD" ++ toC)).getD 1
      else 1

/-- Uppercasing `s.toUpperCase()`: uppercase every character (defined over the char
list so that it evaluates by kernel reduction). -/
def sToUpper (s : String) : String :=
  String.mk (s.data.map Char.toUpper)

/-- The function `getExchangeRate` (src/utils/forex.ts lines 67-114), with the
asynchronous provider call and the TTL cache made explicit inputs:
`cache pair` is the rate of an unexpired cache entry for `pair` (if any) and
`fetched` is the provider outcome, `none` covering both a thrown request
error and a response with missing chart data — the two paths that fall back
to `getFallbackRate`.  Same currency short-circuits to 1 before any lookup. -/
def getExchangeRate (cache : String → Option ℚ) (fromCurrency toCurrency : String)
    (fetched : Option ℚ) : ℚ :=
  if sToUpper fromCurrency = sToUpper toCurrency then 1
  else
    let from_ := sToUpper fromCurrency
    let toC := sToUpper toCurrency
    match cache (from_ ++ toC) with
    | some r => r
    | none =>
      match fetched with
      | some r => r
      | none => getFallbackRate from_ toC

/-- The max-drawdown `for` loop of `calculateMetrics`
(src/utils/metrics.ts lines 49-60): walk the value series carrying the
running peak (initialised to `v[0]`) and the running maximum drawdown
(initialised to 0). -/
def ddLoop : List ℚ → ℚ → ℚ → ℚ
  | [], _, maxDrawdown => maxDrawdown
  | p :: rest, peak, maxDrawdown =>
    let peak' := if p > peak then p else peak
    let drawdown := (peak' - p) / peak'
    ddLoop rest peak' (if drawdown > maxDrawdown then drawdown else maxDrawdown)

/-- The `maxDrawdown` component of `calculateMetrics`
(src/utils/metrics.ts): 0 for series shorter than 2, otherwise the loop
above over the whole series.  (The volatility and Sharpe components involve
real square roots and are not needed by any claim.) -/
def calculateMetricsMaxDrawdown : List ℚ → ℚ
  | [] => 0
  | v :: vs => if (v :: vs).length < 2 then 0 else ddLoop (v :: vs) v 0

/-- Modelled from the spec: the per-index drawdown terms
`(peak-so-far - v[i]) / peak-so-far` with the peak initialised to `v[0]`,
`peak-so-far` at index `i` being the maximum of `v[0..i]`. -/
def ddTerms (peak : ℚ) : List ℚ → List ℚ
  | [] => []
  | p :: rest => (max peak p - p) / max peak p :: ddTerms (max peak p) rest

/-- Modelled from the spec: `max over i of (peak-so-far - v[i]) /
peak-so-far`, peak initialised to `v[0]` (the index-0 term is 0, so the
maximum of the term list is its fold under `max` from 0). -/
def specMaxDrawdown : List ℚ → ℚ
  | [] => 0
  | v :: vs => (ddTerms v (v :: vs)).foldr max 0

/-- An ADD operation with only the always-present fields set. -/
def mkAdd (i t : String) (q p : ℚ) (d : ℤ) : Operation :=
  { id := i, type := OpType.ADD, ticker := t, quantity := q, price := p,
    date := d, timestamp := 0, broker := none, priceInUSD := none, currency := none }

/-- A REMOVE operation with only the always-present fields set. -/
def mkRemove (i t : String) (q p : ℚ) (d : ℤ) : Operation :=
  { id := i, type := OpType.REMOVE, ticker := t, quantity := q, price := p,
    date := d, timestamp := 0, broker := none, priceInUSD := none, currency := none }

/-- The spec's reference ledger: ADD 10 AAPL @ $100, ADD 5 AAPL @ $120,
REMOVE 12 AAPL @ $150, in date order, all USD, same (absent) broker. -/
def exLedger : List Operation :=
  [mkAdd "a1" "AAPL" 10 100 1, mkAdd "a2" "AAPL" 5 120 2,
   mkRemove "r1" "AAPL" 12 150 3]

/-- Two same-date lots fully consumed by a single REMOVE. -/
def exSameDateLots : List Operation :=
  [mkAdd "a1" "A" 5 10 1, mkAdd "a2" "A" 5 20 1, mkRemove "r" "A" 10 30 2]

/-- A buy under broker B1 followed by a sale of the same shares recorded
under broker B2. -/
def exBrokerMix : List Operation :=
  [{ mkAdd "a1" "AAPL" 10 100 1 with broker := some "B1" },
   { mkRemove "r1" "AAPL" 10 150 2 with broker := some "B2" }]

/-- A zero-price buy (entry lot with `priceUSD = 0`) closed by a sale. -/
def exZeroEntry : List Operation :=
  [mkAdd "a1" "Z" 5 0 1, mkRemove "r1" "Z" 5 10 2]

/-- Sum of the ADD quantities of a ticker. -/
def addQty (t : String) (operations : List Operation) : ℚ :=
  ((operations.filter (fun o => o.type = OpType.ADD ∧ o.ticker = t)).map
    (fun o => o.quantity)).sum

/-- Sum of the matched ClosedTrade quantities of a ticker. -/
def closedQty (t : String) (operations : List Operation) : ℚ :=
  (((closedTrades operations).filter (fun tr => tr.ticker = t)).map
    (fun tr => tr.quantity)).sum

/-- Total derived position quantity of a ticker, over the active-positions
output (after the `> 1e-6` filter). -/
def posQtyActive (t : String) (operations : List Operation) : ℚ :=
  (((calculatePositions operations).filter (fun p => p.ticker = t)).map
    (fun p => p.quantity)).sum

/-- Total derived position quantity of a ticker, over all derived positions
(before the active filter, so sub-threshold residues are included). -/
def posQtyAll (t : String) (operations : List Operation) : ℚ :=
  (((calculatePositionsAll operations).filter (fun p => p.ticker = t)).map
    (fun p => p.quantity)).sum

/-- Forget an operation's broker assignment. -/
def eraseBroker (op : Operation) : Operation :=
  { op with broker := none }

/-- Forget an operation's optional currency fields (`priceInUSD`,
`currency`). -/
def eraseCurrencyFields (op : Operation) : Operation :=
  { op with priceInUSD := none, currency := none }

/-- Modelled from the spec: the weighted-average USD cost basis the spec
attributes to the Position Deriver — the `newAvgPrice` recurrence computed
with each ADD's `priceInUSD` (defaulting to `price`); no such USD-term
average exists in src/services/positions.ts.  Folds the date-sorted ADDs of
one ticker into `(quantity, usdAvgPrice)`. -/
def specUSDAvg (ticker : String) (operations : List Operation) : ℚ :=
  ((sortByDate operations).foldl
    (fun acc op =>
      if op.ticker = ticker ∧ op.type = OpType.ADD then
        let newQuantity := acc.1 + op.quantity
        (newQuantity,
          if newQuantity > 0 then
            (acc.1 * acc.2 + op.quantity * opPriceUSD op) / newQuantity
          else 0)
      else acc)
    ((0 : ℚ), (0 : ℚ))).2

/-- Claim C1 (counterexample): on the reference ledger the derived position's
average buy price is 1600/15 = 320/3 ≈ $106.67 — the weighted average of
both buys, which the REMOVE leaves untouched — and not the $120 the claim
states. -/
theorem C1_counterexample :
    (calculatePositions exLedger).map (fun p => p.buyPrice) = [320/3] ∧
      ((320 : ℚ)/3) ≠ 120 := by
  constructor
  · norm_num [calculatePositions, calculatePositionsAll, applyOp, posLookup, stepPos, initPos, posKey, Function.comp,
      brokerKey, sortByDate, insertByDate, exLedger, mkAdd, mkRemove]
  · norm_num

/-- Claim C1 (amended): on the reference ledger the Realized P&L Engine
emits exactly two ClosedTrades whose realized PnL sums to $560, and the
Position Deriver leaves a single position with quantity 3 and average buy
price 320/3 ≈ $106.67 (the weighted average, unchanged by the REMOVE). -/
theorem C1_scenario :
    (closedTrades exLedger).length = 2 ∧
      ((closedTrades exLedger).map (fun t => t.pnl)).sum = 560 ∧
      (calculatePositions exLedger).map (fun p => (p.quantity, p.buyPrice)) =
        [(3, 320/3)] := by
  refine ⟨?_, ?_, ?_⟩ <;>
    norm_num [closedTrades, sortByDate, insertByDate, fifoStep, fifoConsume, fullTrade,
      partialTrade, lotOf, opPriceUSD, sortTradesDesc, insertByCloseDesc, exLedger, Function.comp,
      calculatePositions, calculatePositionsAll, applyOp, posLookup, stepPos, initPos, posKey,
      brokerKey, mkAdd, mkRemove]

/-- Claim C2 (counterexample): one REMOVE that fully consumes two lots with
the same open date emits two ClosedTrades with the identical id `"r-1"` —
the emitted identities are not pairwise distinct. -/
theorem C2_counterexample :
    (closedTrades exSameDateLots).map (fun t => t.id) = ["r-1", "r-1"] ∧
      ¬ ((closedTrades exSameDateLots).map (fun t => t.id)).Nodup := by
  have h : (closedTrades exSameDateLots).map (fun t => t.id) = ["r-1", "r-1"] := by
    norm_num [closedTrades, sortByDate, insertByDate, fifoStep, fifoConsume, fullTrade,
      partialTrade, lotOf, opPriceUSD, sortTradesDesc, insertByCloseDesc, exSameDateLots,
      mkAdd, mkRemove] <;> decide
  exact ⟨h, by rw [h]; decide⟩

/-- Claim C3 (counterexample): with the buy under broker B1 and the sale
under broker B2, the FIFO engine (which pools lots per ticker) closes 10
shares while the per-(ticker, broker) Position Deriver still reports 10
active shares under B1, so closed + position = 20 ≠ 10 = total ADD
quantity: the reconciliation equation fails. -/
theorem C3_counterexample :
    closedQty "AAPL" exBrokerMix + posQtyActive "AAPL" exBrokerMix = 20 ∧
      addQty "AAPL" exBrokerMix = 10 ∧ (20 : ℚ) ≠ 10 := by
  refine ⟨?_, ?_, by norm_num⟩ <;>
    (simp [closedQty, posQtyActive, addQty, closedTrades, sortByDate, insertByDate,
      fifoStep, fifoConsume, fullTrade, partialTrade, lotOf, opPriceUSD, sortTradesDesc,
      insertByCloseDesc, calculatePositions, calculatePositionsAll, applyOp, posLookup, stepPos,
      initPos, posKey, brokerKey, Function.comp, exBrokerMix, mkAdd, mkRemove];
     try norm_num)

/-- Claim C5 (counterexample): a REMOVE matched against a lot with
`entryPriceUSD = 0` makes the engine evaluate
`pnl / (batch.priceUSD * quantity) * 100` with divisor
`entryPriceUSD * quantity = 0` and `pnl = 50 ≠ 0`: a division by zero does
occur (yielding Infinity in JavaScript; the rational model collapses it to
0), so the computation is not zero-guarded. -/
theorem C5_counterexample :
    (closedTrades exZeroEntry).map
        (fun t => (t.entryPriceUSD * t.quantity, t.pnl, t.pnlPercent)) =
      [(0, 50, 0)] := by
  norm_num [closedTrades, sortByDate, insertByDate, fifoStep, fifoConsume, fullTrade,
    partialTrade, lotOf, opPriceUSD, sortTradesDesc, insertByCloseDesc, exZeroEntry,
    mkAdd, mkRemove]

/-- Pulling one element out of the base of a `max`-fold. -/
theorem foldr_max_base (l : List ℚ) (a b : ℚ) :
    l.foldr max (max a b) = max a (l.foldr max b) := by
  induction l with
  | nil => rfl
  | cons x xs ih => simp only [List.foldr, ih, max_left_comm]

/-- The drawdown loop computes the `max`-fold of the per-index drawdown
terms over its starting accumulator. -/
theorem ddLoop_eq_foldr (l : List ℚ) : ∀ peak m : ℚ,
    ddLoop l peak m = (ddTerms peak l).foldr max m := by
  induction l with
  | nil => intro peak m; rfl
  | cons p rest ih =>
    intro peak m
    have hpk : (if p > peak then p else peak) = max peak p := by
      rcases le_or_lt p peak with h | h
      · simp [not_lt.mpr h, max_eq_left h]
      · simp [h, max_eq_right h.le]
    have hart : ∀ d : ℚ, (if d > m then d else m) = max m d := by
      intro d
      rcases le_or_lt d m with h | h
      · simp [not_lt.mpr h, max_eq_left h]
      · simp [h, max_eq_right h.le]
    show ddLoop rest _ _ = _
    rw [hpk, hart, ih, ddTerms, List.foldr_cons, max_comm m _, foldr_max_base]

/-- Claim C9: `calculateMetrics` returns a max drawdown equal to
`max over i of (peak-so-far - v[i]) / peak-so-far` with the peak
initialised to `v[0]`, and on the series `[100, 110, 90, 120]` that value
is `(110 - 90) / 110 = 2/11` (≈ 18.18%). -/
theorem C9_maxDrawdown :
    (∀ series : List ℚ, calculateMetricsMaxDrawdown series = specMaxDrawdown series) ∧
      calculateMetricsMaxDrawdown [100, 110, 90, 120] = 2/11 := by
  constructor
  · intro series
    match series with
    | [] => rfl
    | [v] =>
      show (0 : ℚ) = _
      simp [specMaxDrawdown, ddTerms, max_self, sub_self, zero_div]
    | v :: w :: ws =>
      show calculateMetricsMaxDrawdown (v :: w :: ws) = _
      rw [calculateMetricsMaxDrawdown, if_neg (by simp), specMaxDrawdown,
        ddLoop_eq_foldr]
  · norm_num [calculateMetricsMaxDrawdown, ddLoop]

/-- Claim C8: when the provider fails or returns no data (`fetched = none`)
and the pair is not freshly cached, `getExchangeRate` returns (it is a total
function — conversion never blocks valuation) the static-table resolution:
the direct pair's rate when present, else the inverse entry reciprocated,
else — for two non-USD currencies — the triangulation through USD with
missing legs defaulting to 1, else 1; and a failed EUR→USD fetch returns
exactly 1.08. -/
theorem C8_fallback :
    (∀ (cache : String → Option ℚ) (f t : String),
        cache (sToUpper f ++ sToUpper t) = none →
        getExchangeRate cache f t none =
          if sToUpper f = sToUpper t then 1
          else getFallbackRate (sToUpper f) (sToUpper t)) ∧
      (∀ f t r, FALLBACK_RATES (f ++ t) = some r → getFallbackRate f t = r) ∧
      (∀ f t r, FALLBACK_RATES (f ++ t) = none → FALLBACK_RATES (t ++ f) = some r →
        getFallbackRate f t = 1 / r) ∧
      (∀ f t, FALLBACK_RATES (f ++ t) = none → FALLBACK_RATES (t ++ f) = none →
        f ≠ "USD" → t ≠ "USD" →
        getFallbackRate f t =
          (FALLBACK_RATES (f ++ "USD")).getD 1 * (FALLBACK_RATES ("USD" ++ t)).getD 1) ∧
      (∀ f t, FALLBACK_RATES (f ++ t) = none → FALLBACK_RATES (t ++ f) = none →
        (f = "USD" ∨ t = "USD") → getFallbackRate f t = 1) ∧
      getExchangeRate (fun _ => none) "EUR" "USD" none = 108/100 := by
  refine ⟨?_, ?_, ?_, ?_, ?_, ?_⟩
  · intro cache f t hc
    by_cases h : sToUpper f = sToUpper t
    · simp [getExchangeRate, h]
    · simp [getExchangeRate, h, hc]
  · intro f t r h
    simp [getFallbackRate, h]
  · intro f t r h h'
    simp [getFallbackRate, h, h']
  · intro f t h h' hf ht
    simp [getFallbackRate, h, h', hf, ht]
  · intro f t h h' hor
    rcases hor with hf | ht
    · subst hf; simp [getFallbackRate, h, h']
    · subst ht; simp [getFallbackRate, h, h']
  · have hup : (sToUpper "EUR" = sToUpper "USD") = False := by decide
    rw [getExchangeRate, if_neg (by decide)]
    show getFallbackRate (sToUpper "EUR") (sToUpper "USD") = 108/100
    have h1 : sToUpper "EUR" = "EUR" := by decide
    have h2 : sToUpper "USD" = "USD" := by decide
    rw [h1, h2]
    have he : ("EUR" ++ "USD" : String) = "EURUSD" := rfl
    simp only [getFallbackRate, FALLBACK_RATES, he]
    norm_num

/-- Witness for `C8_fallback`: its quantified parts applied at the failed
EUR→USD fetch with an empty cache, each hypothesis discharged concretely. -/
theorem C8_fallback_witness :
    getExchangeRate (fun _ => none) "EUR" "USD" none =
      if sToUpper "EUR" = sToUpper "USD" then 1
      else getFallbackRate (sToUpper "EUR") (sToUpper "USD") :=
  C8_fallback.1 (fun _ => none) "EUR" "USD" rfl

/-- The final clamp of the deriver's per-operation update never leaves a
negative quantity. -/
theorem clamp_quantity_nonneg (p : Position) :
    0 ≤ (if p.quantity < 0 then { p with quantity := 0 } else p).quantity := by
  by_cases h : p.quantity < 0
  · simp [h]
  · simp [h, le_of_not_lt h]

/-- The trailing clamp of `stepPos` keeps every derived quantity
non-negative, whatever the operation. -/
theorem stepPos_quantity_nonneg (pos : Position) (op : Operation) :
    0 ≤ (stepPos pos op).quantity := by
  simp only [stepPos]
  exact clamp_quantity_nonneg _

/-- Membership in `applyOp m op`: every entry is either an untouched entry
of `m`, or the (possibly freshly initialised) entry at the operation's key
stepped by `stepPos`. -/
theorem mem_applyOp (m : PosMap) (op : Operation) (e : String × Position)
    (he : e ∈ applyOp m op) :
    (e ∈ m ∧ e.1 ≠ posKey op) ∨
      (∃ p, ((posKey op, p) ∈ m ∨ p = initPos op) ∧ e = (posKey op, stepPos p op)) := by
  simp only [applyOp, List.mem_map] at he
  obtain ⟨e', he', rfl⟩ := he
  by_cases h : e'.1 = posKey op
  · right
    refine ⟨e'.2, ?_, by simp [h]⟩
    split at he'
    · left
      have : e' = (posKey op, e'.2) := by
        rw [← h]
      rw [← this]
      exact he'
    · rcases List.mem_append.mp he' with hmem | hsingle
      · left
        have : e' = (posKey op, e'.2) := by
          rw [← h]
        rw [← this]
        exact hmem
      · right
        rw [List.mem_singleton] at hsingle
        rw [hsingle]
  · left
    refine ⟨?_, by simp only [if_neg h]; exact h⟩
    simp only [if_neg h]
    split at he'
    · exact he'
    · rcases List.mem_append.mp he' with hmem | hsingle
      · exact hmem
      · rw [List.mem_singleton] at hsingle
        subst hsingle
        exact absurd rfl h

/-- Replaying any operation list leaves every derived quantity
non-negative. -/
theorem foldl_applyOp_nonneg (l : List Operation) :
    ∀ m : PosMap, (∀ e ∈ m, 0 ≤ e.2.quantity) →
      ∀ e ∈ l.foldl applyOp m, 0 ≤ e.2.quantity := by
  induction l with
  | nil => intro m hm; exact hm
  | cons op rest ih =>
    intro m hm
    refine ih (applyOp m op) ?_
    intro e he
    rcases mem_applyOp m op e he with ⟨hmem, _⟩ | ⟨p, _, rfl⟩
    · exact hm e hmem
    · exact stepPos_quantity_nonneg _ _

/-- Claim C6: after processing every operation each derived position's
quantity is ≥ 0 (REMOVEs are clamped at zero, including a REMOVE with no
prior ADD for its key), and the active-positions output contains only
positions with quantity strictly above 1e-6 — in particular a position
netting to exactly zero never appears in it. -/
theorem C6_clamped_and_active :
    (∀ (operations : List Operation) (p : Position),
        p ∈ calculatePositionsAll operations → 0 ≤ p.quantity) ∧
      (∀ (operations : List Operation) (p : Position),
        p ∈ calculatePositions operations → 1/1000000 < p.quantity) := by
  constructor
  · intro operations p hp
    simp only [calculatePositionsAll, List.mem_map] at hp
    obtain ⟨e, he, rfl⟩ := hp
    exact foldl_applyOp_nonneg _ [] (by simp) e he
  · intro operations p hp
    have := List.mem_filter.mp hp
    simpa using this.2

/-- Witness for `C6_clamped_and_active`: both parts applied to the ledger
`[ADD 5 T @ 10]`, whose single derived position has quantity 5. -/
theorem C6_clamped_and_active_witness :
    0 ≤ (5 : ℚ) ∧ (1/1000000 : ℚ) < 5 := by
  have hmemAll :
      ({ id := "T-Unassigned", ticker := "T", quantity := 5, buyPrice := 10,
         buyDate := 1, broker := none } : Position) ∈
        calculatePositionsAll [mkAdd "a" "T" 5 10 1] := by
    norm_num [calculatePositionsAll, applyOp, posLookup, stepPos, initPos, posKey, brokerKey,
      sortByDate, insertByDate, mkAdd]
    rfl
  have hmem :
      ({ id := "T-Unassigned", ticker := "T", quantity := 5, buyPrice := 10,
         buyDate := 1, broker := none } : Position) ∈
        calculatePositions [mkAdd "a" "T" 5 10 1] := by
    norm_num [calculatePositions, calculatePositionsAll, applyOp, posLookup, stepPos, initPos,
      posKey, brokerKey, sortByDate, insertByDate, mkAdd]
    rfl
  exact ⟨C6_clamped_and_active.1 [mkAdd "a" "T" 5 10 1] _ hmemAll,
    C6_clamped_and_active.2 [mkAdd "a" "T" 5 10 1] _ hmem⟩

/-- Looking up the updated key in a keywise map-update of an association
list returns the updated value. -/
theorem posLookup_map_update (k : String) (f : Position → Position) :
    ∀ m : PosMap,
      posLookup (m.map (fun e => if e.1 = k then (e.1, f e.2) else e)) k =
        (posLookup m k).map f
  | [] => rfl
  | (a, b) :: rest => by
    by_cases h : a = k
    · subst h
      simp [posLookup]
    · simp [posLookup, h, posLookup_map_update k f rest]

/-- Looking up any other key in a keywise map-update of an association list
is unchanged. -/
theorem posLookup_map_update_ne (k k' : String) (hk : k' ≠ k) (f : Position → Position) :
    ∀ m : PosMap,
      posLookup (m.map (fun e => if e.1 = k then (e.1, f e.2) else e)) k' =
        posLookup m k'
  | [] => rfl
  | (a, b) :: rest => by
    by_cases h : a = k
    · subst h
      simp [posLookup, Ne.symm hk, posLookup_map_update_ne a k' hk f rest]
    · by_cases h' : a = k'
      · subst h'
        simp [posLookup, h]
      · simp [posLookup, h, h', posLookup_map_update_ne k k' hk f rest]

/-- Claim C7: a REMOVE processed by the Position Deriver against an existing
position changes only the quantity (to the clamped decrement); the average
buy price, buy date, id, ticker and broker are untouched, and every other
key of the map is untouched too. -/
theorem C7_remove_frame (m : PosMap) (op : Operation) (pos : Position)
    (htype : op.type = OpType.REMOVE)
    (hlook : posLookup m (posKey op) = some pos) :
    (posLookup (applyOp m op) (posKey op) =
      some { pos with quantity :=
        if pos.quantity - op.quantity < 0 then 0 else pos.quantity - op.quantity }) ∧
    (∀ k : String, k ≠ posKey op → posLookup (applyOp m op) k = posLookup m k) := by
  have hsome : (posLookup m (posKey op)).isSome = true := by rw [hlook]; rfl
  constructor
  · rw [applyOp]
    simp only [hsome, if_pos]
    rw [posLookup_map_update (posKey op) (fun p => stepPos p op) m, hlook]
    have hstep : stepPos pos op =
        { pos with quantity :=
          if pos.quantity - op.quantity < 0 then 0 else pos.quantity - op.quantity } := by
      simp only [stepPos, htype]
      by_cases h : pos.quantity - op.quantity < 0
      · simp [h]
      · simp [h]
    rw [Option.map_some']
    rw [hstep]
  · intro k hk
    rw [applyOp]
    simp only [hsome, if_pos]
    exact posLookup_map_update_ne (posKey op) k hk (fun p => stepPos p op) m

/-- Witness for `C7_remove_frame`: applied to a one-entry map and the REMOVE
of 2 T, with both hypotheses discharged concretely. -/
theorem C7_remove_frame_witness :
    posLookup (applyOp [("T-Unassigned",
        ({ id := "T-Unassigned", ticker := "T", quantity := 5, buyPrice := 10,
           buyDate := 1, broker := none } : Position))]
        (mkRemove "r" "T" 2 11 2)) (posKey (mkRemove "r" "T" 2 11 2)) =
      some { id := "T-Unassigned", ticker := "T",
             quantity := if (5 : ℚ) - 2 < 0 then 0 else 5 - 2, buyPrice := 10,
             buyDate := 1, broker := none } :=
  (C7_remove_frame _ (mkRemove "r" "T" 2 11 2) _ rfl (by rfl)).1

/-- Mapping a date-preserving transformation commutes with date insertion. -/
theorem insertByDate_map (f : Operation → Operation)
    (hf : ∀ op, (f op).date = op.date) (op : Operation) :
    ∀ l : List Operation, insertByDate (f op) (l.map f) = (insertByDate op l).map f := by
  intro l
  induction l with
  | nil => rfl
  | cons o rest ih =>
    simp only [List.map_cons, insertByDate, hf]
    by_cases h : o.date < op.date
    · simp [h, ih]
    · simp [h]

/-- Mapping a date-preserving transformation commutes with the stable date
sort. -/
theorem sortByDate_map (f : Operation → Operation)
    (hf : ∀ op, (f op).date = op.date) :
    ∀ l : List Operation, sortByDate (l.map f) = (sortByDate l).map f := by
  intro l
  induction l with
  | nil => rfl
  | cons o rest ih =>
    simp only [List.map_cons, sortByDate, ih]
    exact insertByDate_map f hf o (sortByDate rest)

/-- The Position Deriver reads none of an operation's optional currency
fields: stripping them changes nothing stepwise. -/
theorem applyOp_eraseCurrencyFields (m : PosMap) (op : Operation) :
    applyOp m (eraseCurrencyFields op) = applyOp m op := rfl

/-- Neither trade constructor reads the broker. -/
theorem fullTrade_eraseBroker (op : Operation) (b : Lot) :
    fullTrade (eraseBroker op) b = fullTrade op b := rfl

theorem partialTrade_eraseBroker (op : Operation) (b : Lot) (q : ℚ) :
    partialTrade (eraseBroker op) b q = partialTrade op b q := rfl

/-- Lots carry no broker information. -/
theorem lotOf_eraseBroker (op : Operation) : lotOf (eraseBroker op) = lotOf op := rfl

/-- The FIFO matching loop never reads the broker. -/
theorem fifoConsume_eraseBroker (op : Operation) :
    ∀ (q : ℚ) (lots : List Lot),
      fifoConsume (eraseBroker op) q lots = fifoConsume op q lots
  | _, [] => rfl
  | q, b :: rest => by
    simp only [fifoConsume, fifoConsume_eraseBroker op (q - b.quantity) rest,
      fullTrade_eraseBroker, partialTrade_eraseBroker]

/-- The FIFO matcher never reads an operation's broker: stripping it changes
nothing stepwise. -/
theorem fifoStep_eraseBroker (st : List ClosedTrade × Inventory) (op : Operation) :
    fifoStep st (eraseBroker op) = fifoStep st op := by
  have ht : (eraseBroker op).type = op.type := rfl
  have htk : (eraseBroker op).ticker = op.ticker := rfl
  have hq : (eraseBroker op).quantity = op.quantity := rfl
  cases h : op.type
  · simp only [fifoStep, ht, h, lotOf_eraseBroker, htk]
  · simp only [fifoStep, ht, h, htk, hq, fifoConsume_eraseBroker]

/-- Claim C4 (amended): on ADD the Position Deriver updates the
weighted-average cost basis `(oldQty*oldAvg + opQty*opPrice) /
(oldQty+opQty)` in native-currency terms only, from `op.price`; it never
consults `priceInUSD` or `currency`, so the derived positions are identical
for any two ledgers that agree outside those fields, and no USD-term
average is produced. -/
theorem C4_native_only_average :
    (∀ (pos : Position) (op : Operation), op.type = OpType.ADD →
        (stepPos pos op).buyPrice =
          if pos.quantity + op.quantity > 0 then
            (pos.quantity * pos.buyPrice + op.quantity * op.price) /
              (pos.quantity + op.quantity)
          else 0) ∧
      (∀ ops₁ ops₂ : List Operation,
        ops₁.map eraseCurrencyFields = ops₂.map eraseCurrencyFields →
        calculatePositions ops₁ = calculatePositions ops₂) := by
  constructor
  · intro pos op htype
    simp only [stepPos, htype, apply_ite (fun p : Position => p.buyPrice), ite_self]
  · have key : ∀ ops : List Operation,
        calculatePositions (ops.map eraseCurrencyFields) = calculatePositions ops := by
      intro ops
      have hdate : ∀ op : Operation, (eraseCurrencyFields op).date = op.date :=
        fun _ => rfl
      have hfold : ∀ (l : List Operation) (m : PosMap),
          (l.map eraseCurrencyFields).foldl applyOp m = l.foldl applyOp m := by
        intro l
        induction l with
        | nil => intro m; rfl
        | cons o rest ih =>
          intro m
          simp only [List.map_cons, List.foldl_cons, applyOp_eraseCurrencyFields]
          exact ih (applyOp m o)
      unfold calculatePositions calculatePositionsAll
      rw [sortByDate_map _ hdate, hfold]
    intro ops₁ ops₂ h
    rw [← key ops₁, h, key ops₂]

/-- Witness for `C4_native_only_average`: part 1 at a concrete position and
ADD, part 2 at two one-ADD ledgers that differ only in `priceInUSD`. -/
theorem C4_native_only_average_witness :
    ((stepPos { id := "T-Unassigned", ticker := "T", quantity := 5, buyPrice := 10,
                buyDate := 1, broker := none } (mkAdd "b" "T" 5 30 2)).buyPrice =
      if (5 : ℚ) + 5 > 0 then ((5 : ℚ) * 10 + 5 * 30) / (5 + 5) else 0) ∧
      calculatePositions [{ mkAdd "a" "T" 10 100 1 with priceInUSD := some 50 }] =
        calculatePositions [{ mkAdd "a" "T" 10 100 1 with priceInUSD := some 100 }] :=
  ⟨C4_native_only_average.1 _ (mkAdd "b" "T" 5 30 2) rfl,
    C4_native_only_average.2 _ _ rfl⟩

/-- Claim C4 (counterexample): two one-ADD ledgers that differ only in
`priceInUSD` (50 vs 100) produce identical derived positions, while the
spec's USD-term weighted average differs (50 vs 100): the Position Deriver
computes no USD-term average from `priceInUSD`. -/
theorem C4_counterexample :
    calculatePositions [{ mkAdd "a" "T" 10 100 1 with priceInUSD := some 50 }] =
        calculatePositions [{ mkAdd "a" "T" 10 100 1 with priceInUSD := some 100 }] ∧
      specUSDAvg "T" [{ mkAdd "a" "T" 10 100 1 with priceInUSD := some 50 }] = 50 ∧
      specUSDAvg "T" [{ mkAdd "a" "T" 10 100 1 with priceInUSD := some 100 }] = 100 ∧
      (50 : ℚ) ≠ 100 := by
  refine ⟨rfl, ?_, ?_, by norm_num⟩ <;>
    norm_num [specUSDAvg, sortByDate, insertByDate, opPriceUSD, mkAdd]

/-- Claim C10: the Realized P&L Engine's output is independent of broker
assignments — two ledgers identical except for broker fields produce the
identical ClosedTrade list (lots are queued per ticker only). -/
theorem C10_broker_independent (ops₁ ops₂ : List Operation)
    (h : ops₁.map eraseBroker = ops₂.map eraseBroker) :
    closedTrades ops₁ = closedTrades ops₂ := by
  have key : ∀ ops : List Operation,
      closedTrades (ops.map eraseBroker) = closedTrades ops := by
    intro ops
    have hdate : ∀ op : Operation, (eraseBroker op).date = op.date := fun _ => rfl
    have hfold : ∀ (l : List Operation) (st : List ClosedTrade × Inventory),
        (l.map eraseBroker).foldl fifoStep st = l.foldl fifoStep st := by
      intro l
      induction l with
      | nil => intro st; rfl
      | cons o rest ih =>
        intro st
        simp only [List.map_cons, List.foldl_cons, fifoStep_eraseBroker]
        exact ih (fifoStep st o)
    unfold closedTrades
    rw [sortByDate_map _ hdate, hfold]
  rw [← key ops₁, h, key ops₂]

/-- Witness for `C10_broker_independent`: the mixed-broker ledger against
the same ledger with both brokers reassigned, hypothesis discharged by
computation. -/
theorem C10_broker_independent_witness :
    closedTrades exBrokerMix =
      closedTrades [{ mkAdd "a1" "AAPL" 10 100 1 with broker := some "Z" },
        mkRemove "r1" "AAPL" 10 150 2] :=
  C10_broker_independent _ _ rfl

/-- Claim C2 (amended): replay is a pure function of the ledger (identical
state always yields identical ClosedTrades), and when a single REMOVE is
split across two lots it fully consumes, the resulting records' ids are
`removeId-lotOpenDate` per lot — with no sequence-within-split component —
so the ids of two lots with the same open date coincide instead of being
distinct. -/
theorem C2_split_ids (a1 a2 r t : String) (q1 q2 p1 p2 p3 : ℚ) (d1 d2 d3 : ℤ)
    (h12 : d1 ≤ d2) (h23 : d2 ≤ d3) (hq1 : 0 < q1) (hq2 : 0 < q2) :
    (closedTrades [mkAdd a1 t q1 p1 d1, mkAdd a2 t q2 p2 d2,
        mkRemove r t (q1 + q2) p3 d3]).map (fun tr => tr.id) =
      [r ++ "-" ++ toString d1, r ++ "-" ++ toString d2] ∧
    (d1 = d2 → r ++ "-" ++ toString d1 = r ++ "-" ++ toString d2) := by
  have hn32 : ¬ d3 < d2 := not_lt.mpr h23
  have hn21 : ¬ d2 < d1 := not_lt.mpr h12
  have hgt : q1 + q2 > 0 := by linarith
  have hle1 : q1 ≤ q1 + q2 := by linarith
  have hgt2 : q1 + q2 - q1 > 0 := by linarith
  have hle2 : q2 ≤ q1 + q2 - q1 := by linarith
  refine ⟨?_, fun h => by rw [h]⟩
  simp only [closedTrades, sortByDate, insertByDate, mkAdd, mkRemove, hn32, hn21,
    if_false, List.foldl_cons, List.foldl_nil, fifoStep, lotOf, opPriceUSD,
    fifoConsume, fullTrade, partialTrade, sortTradesDesc, insertByCloseDesc,
    hgt, hle1, hgt2, hle2, if_true, List.map]
  simp [lt_irrefl]

/-- Witness for `C2_split_ids`: the same-date two-lot split at concrete
values; both ids collapse to `"r-1"`. -/
theorem C2_split_ids_witness :
    (closedTrades [mkAdd "a1" "A" 5 10 1, mkAdd "a2" "A" 5 20 1,
        mkRemove "r" "A" (5 + 5) 30 2]).map (fun tr => tr.id) =
      ["r" ++ "-" ++ toString (1 : ℤ), "r" ++ "-" ++ toString (1 : ℤ)] ∧
    ((1 : ℤ) = 1 → "r" ++ "-" ++ toString (1 : ℤ) = "r" ++ "-" ++ toString (1 : ℤ)) :=
  C2_split_ids "a1" "a2" "r" "A" 5 5 10 20 30 1 1 2 (by norm_num) (by norm_num)
    (by norm_num) (by norm_num)

/-- Descending insertion permutes: the result is the element plus the list. -/
theorem insertByCloseDesc_perm (tr : ClosedTrade) :
    ∀ l : List ClosedTrade, List.Perm (insertByCloseDesc tr l) (tr :: l) := by
  intro l
  induction l with
  | nil => rfl
  | cons o rest ih =>
    rw [insertByCloseDesc]
    by_cases h : o.closeDate > tr.closeDate
    · rw [if_pos h]
      exact (ih.cons o).trans (List.Perm.swap tr o rest)
    · rw [if_neg h]

/-- The reporting sort of trades is a permutation. -/
theorem sortTradesDesc_perm : ∀ l : List ClosedTrade, List.Perm (sortTradesDesc l) l := by
  intro l
  induction l with
  | nil => rfl
  | cons tr rest ih =>
    exact (insertByCloseDesc_perm tr (sortTradesDesc rest)).trans (ih.cons tr)

/-- Ascending insertion permutes. -/
theorem insertByDate_perm (op : Operation) :
    ∀ l : List Operation, List.Perm (insertByDate op l) (op :: l) := by
  intro l
  induction l with
  | nil => rfl
  | cons o rest ih =>
    rw [insertByDate]
    by_cases h : o.date < op.date
    · rw [if_pos h]
      exact (ih.cons o).trans (List.Perm.swap op o rest)
    · rw [if_neg h]

/-- The replay sort of operations is a permutation. -/
theorem sortByDate_perm : ∀ l : List Operation, List.Perm (sortByDate l) l := by
  intro l
  induction l with
  | nil => rfl
  | cons op rest ih =>
    exact (insertByDate_perm op (sortByDate rest)).trans (ih.cons op)

/-- Every trade emitted by the FIFO matching loop satisfies the unguarded
percent formula. -/
theorem fifoConsume_percent (op : Operation) :
    ∀ (q : ℚ) (lots : List Lot) (tr : ClosedTrade), tr ∈ (fifoConsume op q lots).1 →
      tr.pnlPercent = tr.pnl / (tr.entryPriceUSD * tr.quantity) * 100
  | _, [], _ => by simp [fifoConsume]
  | q, b :: rest, tr => by
    intro htr
    rw [fifoConsume] at htr
    by_cases h0 : q > 0
    · rw [if_pos h0] at htr
      by_cases hle : b.quantity ≤ q
      · rw [if_pos hle] at htr
        rcases List.mem_cons.mp htr with rfl | hmem
        · rfl
        · exact fifoConsume_percent op (q - b.quantity) rest tr hmem
      · rw [if_neg hle] at htr
        rw [List.mem_singleton.mp htr]
        rfl
    · rw [if_neg h0] at htr
      simp at htr
  termination_by _ lots => lots.length

/-- Every trade accumulated by the replay satisfies the unguarded percent
formula. -/
theorem foldl_fifoStep_percent :
    ∀ (l : List Operation) (st : List ClosedTrade × Inventory),
      (∀ tr ∈ st.1, tr.pnlPercent = tr.pnl / (tr.entryPriceUSD * tr.quantity) * 100) →
      ∀ tr ∈ (l.foldl fifoStep st).1,
        tr.pnlPercent = tr.pnl / (tr.entryPriceUSD * tr.quantity) * 100 := by
  intro l
  induction l with
  | nil => intro st h; exact h
  | cons op rest ih =>
    intro st h
    refine ih (fifoStep st op) ?_
    intro tr htr
    rw [fifoStep] at htr
    cases hty : op.type
    · rw [hty] at htr
      exact h tr htr
    · rw [hty] at htr
      rcases List.mem_append.mp htr with hmem | hmem
      · exact h tr hmem
      · exact fifoConsume_percent op op.quantity (st.2 op.ticker) tr hmem

/-- Claim C5 (amended): the percent computation is not zero-guarded — every
emitted ClosedTrade's `pnlPercent` is literally
`pnl / (entryPriceUSD * quantity) * 100`; when `entryPriceUSD = 0` the
divisor `entryPriceUSD * quantity` is 0, a division by zero is performed
(non-finite in JavaScript, 0 in the rational semantics). -/
theorem C5_percent_unguarded (operations : List Operation) (tr : ClosedTrade)
    (htr : tr ∈ closedTrades operations) :
    tr.pnlPercent = tr.pnl / (tr.entryPriceUSD * tr.quantity) * 100 ∧
      (tr.entryPriceUSD = 0 → tr.entryPriceUSD * tr.quantity = 0 ∧ tr.pnlPercent = 0) := by
  have hmem : tr ∈ (((sortByDate operations).foldl fifoStep ([], fun _ => [])).1) :=
    (sortTradesDesc_perm _).mem_iff.mp htr
  have hp := foldl_fifoStep_percent (sortByDate operations) ([], fun _ => [])
    (by simp) tr hmem
  refine ⟨hp, fun h0 => ?_⟩
  have : tr.entryPriceUSD * tr.quantity = 0 := by rw [h0, zero_mul]
  exact ⟨this, by rw [hp, this, div_zero, zero_mul]⟩

/-- Witness for `C5_percent_unguarded`: applied to the zero-entry-price
ledger's single trade, membership discharged by computation. -/
theorem C5_percent_unguarded_witness :
    ({ id := "r1-1", ticker := "Z", openDate := 1, closeDate := 2, quantity := 5,
       entryPrice := 0, exitPrice := 10, entryPriceUSD := 0, exitPriceUSD := 10,
       currency := "USD", pnl := 50, pnlPercent := 0 } : ClosedTrade).pnlPercent =
        ({ id := "r1-1", ticker := "Z", openDate := 1, closeDate := 2, quantity := 5,
           entryPrice := 0, exitPrice := 10, entryPriceUSD := 0, exitPriceUSD := 10,
           currency := "USD", pnl := 50, pnlPercent := 0 } : ClosedTrade).pnl /
          (((0 : ℚ)) * 5) * 100 ∧
      ((0 : ℚ) = 0 → (0 : ℚ) * 5 = 0 ∧ (0 : ℚ) = 0) := by
  have hmem :
      ({ id := "r1-1", ticker := "Z", openDate := 1, closeDate := 2, quantity := 5,
         entryPrice := 0, exitPrice := 10, entryPriceUSD := 0, exitPriceUSD := 10,
         currency := "USD", pnl := 50, pnlPercent := 0 } : ClosedTrade) ∈
        closedTrades exZeroEntry := by
    norm_num [closedTrades, sortByDate, insertByDate, fifoStep, fifoConsume, fullTrade,
      partialTrade, lotOf, opPriceUSD, sortTradesDesc, insertByCloseDesc, exZeroEntry,
      mkAdd, mkRemove]
    rfl
  exact C5_percent_unguarded exZeroEntry _ hmem

/-- Total quantity held in a lot queue. -/
def invTotal (lots : List Lot) : ℚ :=
  (lots.map (fun l => l.quantity)).sum

/-- Matched quantity of a ticker within a trade list. -/
def tradesQty (t : String) (ts : List ClosedTrade) : ℚ :=
  ((ts.filter (fun tr => tr.ticker = t)).map (fun tr => tr.quantity)).sum

/-- Total derived quantity of a ticker within a position map. -/
def entsQty (t : String) (m : PosMap) : ℚ :=
  (((m.map Prod.snd).filter (fun p => p.ticker = t)).map (fun p => p.quantity)).sum

/-- A queue of non-negative lots has non-negative total. -/
theorem invTotal_nonneg (lots : List Lot) (h : ∀ l ∈ lots, 0 ≤ l.quantity) :
    0 ≤ invTotal lots := by
  refine List.sum_nonneg ?_
  intro q hq
  obtain ⟨l, hl, rfl⟩ := List.mem_map.mp hq
  exact h l hl

/-- Behaviour of one FIFO `while` loop on a non-negative queue and
non-negative quantity-to-close: matched quantity plus remaining total is the
original total, the remaining total is the zero-clamped decrement, the queue
stays non-negative, and every emitted trade carries the REMOVE's ticker. -/
theorem fifoConsume_spec (op : Operation) :
    ∀ (q : ℚ) (lots : List Lot), 0 ≤ q → (∀ l ∈ lots, 0 ≤ l.quantity) →
      (((fifoConsume op q lots).1.map (fun tr => tr.quantity)).sum
          + invTotal (fifoConsume op q lots).2 = invTotal lots) ∧
      invTotal (fifoConsume op q lots).2 = max (invTotal lots - q) 0 ∧
      (∀ l ∈ (fifoConsume op q lots).2, 0 ≤ l.quantity) ∧
      (∀ tr ∈ (fifoConsume op q lots).1, tr.ticker = op.ticker)
  | q, [], hq, hl => by
    refine ⟨by simp [fifoConsume, invTotal], ?_, by simp [fifoConsume], by simp [fifoConsume]⟩
    simp only [fifoConsume, invTotal, List.map_nil, List.sum_nil]
    rw [zero_sub, max_eq_right (by linarith)]
  | q, b :: rest, hq, hl => by
    have hb : 0 ≤ b.quantity := hl b (List.mem_cons_self b rest)
    have hrest : ∀ l ∈ rest, 0 ≤ l.quantity := fun l h => hl l (List.mem_cons_of_mem b h)
    have hrs : 0 ≤ (rest.map (fun l => l.quantity)).sum := invTotal_nonneg rest hrest
    by_cases h0 : q > 0
    · by_cases hle : b.quantity ≤ q
      · have hq' : 0 ≤ q - b.quantity := by linarith
        obtain ⟨ih1, ih2, ih3, ih4⟩ := fifoConsume_spec op (q - b.quantity) rest hq' hrest
        rw [fifoConsume, if_pos h0, if_pos hle]
        refine ⟨?_, ?_, ih3, ?_⟩
        · have hfq : (fullTrade op b).quantity = b.quantity := rfl
          simp only [invTotal, List.map_cons, List.sum_cons, hfq] at ih1 ⊢
          linarith
        · have harg : invTotal rest - (q - b.quantity) = invTotal (b :: rest) - q := by
            simp only [invTotal, List.map_cons, List.sum_cons]
            ring
          rw [ih2, harg]
        · intro tr htr
          rcases List.mem_cons.mp htr with rfl | hmem
          · rfl
          · exact ih4 tr hmem
      · rw [fifoConsume, if_pos h0, if_neg hle]
        have hlt : q < b.quantity := lt_of_not_le hle
        have hptq : (partialTrade op b q).quantity = q := rfl
        refine ⟨?_, ?_, ?_, ?_⟩
        · simp only [invTotal, List.map_cons, List.map_nil, List.sum_cons, List.sum_nil,
            hptq]
          ring
        · simp only [invTotal, List.map_cons, List.sum_cons]
          rw [max_eq_left (by linarith)]
          ring
        · intro l hmem
          rcases List.mem_cons.mp hmem with rfl | hmem'
          · show (0 : ℚ) ≤ b.quantity - q
            linarith
          · exact hrest l hmem'
        · intro tr htr
          rw [List.mem_singleton.mp htr]
          rfl
    · have hq0 : q = 0 := le_antisymm (not_lt.mp h0) hq
      rw [fifoConsume, if_neg h0]
      refine ⟨by simp, ?_, hl, by simp⟩
      rw [hq0, sub_zero, max_eq_left (invTotal_nonneg _ hl)]
  termination_by _ lots _ _ => lots.length

/-- A successful lookup is a member. -/
theorem posLookup_mem (k : String) (p : Position) :
    ∀ m : PosMap, posLookup m k = some p → (k, p) ∈ m
  | [], h => by simp [posLookup] at h
  | e :: rest, h => by
    rw [posLookup] at h
    by_cases he : e.1 = k
    · rw [if_pos he] at h
      have h2 : e.2 = p := Option.some.inj h
      have : e = (k, p) := by
        rw [← he, ← h2]
      rw [← this]
      exact List.mem_cons_self e rest
    · rw [if_neg he] at h
      exact List.mem_cons_of_mem e (posLookup_mem k p rest h)

/-- A failed lookup means the key is absent. -/
theorem posLookup_none (k : String) :
    ∀ m : PosMap, posLookup m k = none → ∀ e ∈ m, e.1 ≠ k
  | [], _, e, he => absurd he (List.not_mem_nil e)
  | e' :: rest, h, e, he => by
    rw [posLookup] at h
    by_cases he' : e'.1 = k
    · rw [if_pos he'] at h
      exact absurd h (by simp)
    · rw [if_neg he'] at h
      rcases List.mem_cons.mp he with rfl | hmem
      · exact he'
      · exact posLookup_none k rest h e hmem

/-- Appending a fresh key makes it found. -/
theorem posLookup_append_self (k : String) (v : Position) :
    ∀ m : PosMap, posLookup m k = none → posLookup (m ++ [(k, v)]) k = some v
  | [], _ => by simp [posLookup]
  | e :: rest, h => by
    rw [posLookup] at h
    by_cases he : e.1 = k
    · rw [if_pos he] at h
      exact absurd h (by simp)
    · rw [if_neg he] at h
      rw [List.cons_append, posLookup, if_neg he]
      exact posLookup_append_self k v rest h

/-- Appending an entry under a different key does not change a lookup. -/
theorem posLookup_append_ne (k k' : String) (hk : k' ≠ k) (v : Position) :
    ∀ m : PosMap, posLookup (m ++ [(k, v)]) k' = posLookup m k'
  | [] => by simp [posLookup, Ne.symm hk]
  | e :: rest => by
    rw [List.cons_append, posLookup, posLookup]
    by_cases he : e.1 = k'
    · rw [if_pos he, if_pos he]
    · rw [if_neg he, if_neg he]
      exact posLookup_append_ne k k' hk v rest

/-- A keywise update does not change the key list. -/
theorem map_update_keys (k : String) (f : Position → Position) :
    ∀ m : PosMap,
      ((m.map (fun e => if e.1 = k then (e.1, f e.2) else e)).map Prod.fst) =
        m.map Prod.fst
  | [] => rfl
  | e :: rest => by
    by_cases he : e.1 = k
    · simp only [List.map_cons, if_pos he, map_update_keys k f rest]
    · simp only [List.map_cons, if_neg he, map_update_keys k f rest]

/-- The key list of `applyOp`: unchanged on a hit, the new key appended on a
miss. -/
theorem applyOp_keys (m : PosMap) (op : Operation) :
    (applyOp m op).map Prod.fst =
      if (posLookup m (posKey op)).isSome then m.map Prod.fst
      else m.map Prod.fst ++ [posKey op] := by
  rw [applyOp]
  by_cases h : (posLookup m (posKey op)).isSome
  · rw [if_pos h, if_pos h]
    exact map_update_keys (posKey op) (fun p => stepPos p op) m
  · rw [if_neg h, if_neg h,
      map_update_keys (posKey op) (fun p => stepPos p op) (m ++ [(posKey op, initPos op)]),
      List.map_append]
    rfl

/-- When every `t`-ticker entry lives under an absent key, no entry has
ticker `t`. -/
theorem tFilter_nil (t k : String) :
    ∀ m : PosMap, (∀ e ∈ m, e.2.ticker = t → e.1 = k) → k ∉ m.map Prod.fst →
      (m.map Prod.snd).filter (fun p => p.ticker = t) = []
  | [], _, _ => rfl
  | e :: rest, hcr, hk => by
    have hek : e.1 ≠ k := fun h => hk (by rw [← h]; exact List.mem_map_of_mem Prod.fst (List.mem_cons_self e rest))
    have het : e.2.ticker ≠ t := fun h => hek (hcr e (List.mem_cons_self e rest) h)
    simp only [List.map_cons, List.filter_cons]
    rw [if_neg (by simpa using het)]
    exact tFilter_nil t k rest (fun e' he' => hcr e' (List.mem_cons_of_mem e he'))
      (fun h => hk (List.mem_cons_of_mem _ h))

/-- Under unique keys, with every `t`-ticker entry at key `k`, the
`t`-filtered positions are exactly the entry at `k` (when it has ticker
`t`). -/
theorem tFilter_eq (t k : String) :
    ∀ m : PosMap, (m.map Prod.fst).Nodup →
      (∀ e ∈ m, e.2.ticker = t → e.1 = k) →
      (m.map Prod.snd).filter (fun p => p.ticker = t) =
        (match posLookup m k with
         | some p => if p.ticker = t then [p] else []
         | none => [])
  | [], _, _ => rfl
  | e :: rest, hnd, hcr => by
    have hnd' : (rest.map Prod.fst).Nodup := (List.nodup_cons.mp (by simpa using hnd)).2
    have hnotin : e.1 ∉ rest.map Prod.fst := (List.nodup_cons.mp (by simpa using hnd)).1
    have hcr' : ∀ e' ∈ rest, e'.2.ticker = t → e'.1 = k :=
      fun e' he' => hcr e' (List.mem_cons_of_mem e he')
    by_cases he : e.1 = k
    · rw [posLookup, if_pos he]
      have hrest : (rest.map Prod.snd).filter (fun p => p.ticker = t) = [] := by
        refine tFilter_nil t k rest hcr' ?_
        rw [← he]
        exact hnotin
      simp only [List.map_cons, List.filter_cons]
      by_cases ht : e.2.ticker = t
      · rw [if_pos (by simpa using ht), if_pos ht, hrest]
      · rw [if_neg (by simpa using ht), if_neg ht, hrest]
    · rw [posLookup, if_neg he]
      have het : e.2.ticker ≠ t := fun h => he (hcr e (List.mem_cons_self e rest) h)
      simp only [List.map_cons, List.filter_cons]
      rw [if_neg (by simpa using het)]
      exact tFilter_eq t k rest hnd' hcr'

/-- Value of `entsQty` under unique keys concentrated at key `k`. -/
theorem entsQty_eq (t k : String) (m : PosMap) (hnd : (m.map Prod.fst).Nodup)
    (hcr : ∀ e ∈ m, e.2.ticker = t → e.1 = k) :
    entsQty t m =
      (match posLookup m k with
       | some p => if p.ticker = t then p.quantity else 0
       | none => 0) := by
  rw [entsQty, tFilter_eq t k m hnd hcr]
  cases posLookup m k with
  | none => rfl
  | some p =>
    by_cases ht : p.ticker = t
    · simp [ht]
    · simp [ht]

/-- The update `stepPos` never changes the ticker. -/
theorem stepPos_ticker (pos : Position) (op : Operation) :
    (stepPos pos op).ticker = pos.ticker := by
  cases h : op.type <;>
    simp [stepPos, h, apply_ite (fun p : Position => p.ticker), ite_self]

/-- The ADD branch adds the operation's quantity (no clamp fires when both
inputs are non-negative). -/
theorem stepPos_quantity_add (pos : Position) (op : Operation)
    (htype : op.type = OpType.ADD) (hpos : 0 ≤ pos.quantity) (hop : 0 ≤ op.quantity) :
    (stepPos pos op).quantity = pos.quantity + op.quantity := by
  have hnneg : ¬ (pos.quantity + op.quantity < 0) := by linarith
  simp [stepPos, htype, apply_ite (fun p : Position => p.quantity), ite_self, hnneg]

/-- The REMOVE branch is the zero-clamped decrement. -/
theorem stepPos_quantity_remove (pos : Position) (op : Operation)
    (htype : op.type = OpType.REMOVE) :
    (stepPos pos op).quantity = max (pos.quantity - op.quantity) 0 := by
  simp only [stepPos, htype, apply_ite (fun p : Position => p.quantity), ite_self]
  by_cases h : pos.quantity - op.quantity < 0
  · simp only [if_pos h]
    rw [max_eq_right (le_of_lt h)]
  · simp only [if_neg h]
    rw [max_eq_left (not_lt.mp h)]

/-- Matched quantity distributes over appended trade lists. -/
theorem tradesQty_append (t : String) (a c : List ClosedTrade) :
    tradesQty t (a ++ c) = tradesQty t a + tradesQty t c := by
  simp [tradesQty, List.filter_append]

/-- Trades all carrying the ticker contribute their full quantity. -/
theorem tradesQty_all (t : String) (ts : List ClosedTrade)
    (h : ∀ tr ∈ ts, tr.ticker = t) :
    tradesQty t ts = (ts.map (fun tr => tr.quantity)).sum := by
  rw [tradesQty, List.filter_eq_self.mpr]
  intro tr htr
  simpa using h tr htr

/-- Trades of other tickers contribute nothing. -/
theorem tradesQty_none (t : String) (ts : List ClosedTrade)
    (h : ∀ tr ∈ ts, tr.ticker ≠ t) :
    tradesQty t ts = 0 := by
  rw [tradesQty, List.filter_eq_nil.mpr]
  · rfl
  · intro tr htr
    simpa using h tr htr

/-- One step of the ADD-quantity ledger sum. -/
theorem addQty_cons (t : String) (op : Operation) (l : List Operation) :
    addQty t (op :: l) =
      (if op.type = OpType.ADD ∧ op.ticker = t then op.quantity else 0) + addQty t l := by
  rw [addQty, addQty, List.filter_cons]
  by_cases h : op.type = OpType.ADD ∧ op.ticker = t
  · rw [if_pos (by simpa using h), if_pos h, List.map_cons, List.sum_cons]
  · rw [if_neg (by simpa using h), if_neg h, zero_add]

/-- Every trade emitted by the FIFO loop carries the REMOVE's ticker. -/
theorem fifoConsume_ticker (op : Operation) :
    ∀ (q : ℚ) (lots : List Lot) (tr : ClosedTrade), tr ∈ (fifoConsume op q lots).1 →
      tr.ticker = op.ticker
  | _, [], _ => by simp [fifoConsume]
  | q, b :: rest, tr => by
    intro htr
    rw [fifoConsume] at htr
    by_cases h0 : q > 0
    · rw [if_pos h0] at htr
      by_cases hle : b.quantity ≤ q
      · rw [if_pos hle] at htr
        rcases List.mem_cons.mp htr with rfl | hmem
        · rfl
        · exact fifoConsume_ticker op (q - b.quantity) rest tr hmem
      · rw [if_neg hle] at htr
        rw [List.mem_singleton.mp htr]
        rfl
    · rw [if_neg h0] at htr
      simp at htr
  termination_by _ lots _ => lots.length

/-- Appending one lot adds its quantity to the total. -/
theorem invTotal_append (lots : List Lot) (l : Lot) :
    invTotal (lots ++ [l]) = invTotal lots + l.quantity := by
  simp [invTotal]

/-- One replay step preserves the coupling invariants between the Position
Deriver's map and the FIFO engine's state, and moves the conservation
equation forward by the operation's ADD contribution. -/
theorem conservation_step (t b : String) (op : Operation)
    (st : List ClosedTrade × Inventory) (m : PosMap)
    (hq : 0 ≤ op.quantity)
    (hb : op.ticker = t → brokerKey op = b)
    (hinj : posKey op = t ++ "-" ++ b → op.ticker = t)
    (hkeys : (m.map Prod.fst).Nodup)
    (hcr : ∀ e ∈ m, (e.1 = t ++ "-" ++ b → e.2.ticker = t) ∧
      (e.2.ticker = t → e.1 = t ++ "-" ++ b))
    (hnn : ∀ e ∈ m, 0 ≤ e.2.quantity)
    (hlots : ∀ lo ∈ st.2 t, 0 ≤ lo.quantity)
    (hcouple : entsQty t m = invTotal (st.2 t)) :
    ((applyOp m op).map Prod.fst).Nodup ∧
    (∀ e ∈ applyOp m op, (e.1 = t ++ "-" ++ b → e.2.ticker = t) ∧
      (e.2.ticker = t → e.1 = t ++ "-" ++ b)) ∧
    (∀ e ∈ applyOp m op, 0 ≤ e.2.quantity) ∧
    (∀ lo ∈ (fifoStep st op).2 t, 0 ≤ lo.quantity) ∧
    (entsQty t (applyOp m op) = invTotal ((fifoStep st op).2 t)) ∧
    (tradesQty t (fifoStep st op).1 + invTotal ((fifoStep st op).2 t) =
      tradesQty t st.1 + invTotal (st.2 t) +
        (if op.type = OpType.ADD ∧ op.ticker = t then op.quantity else 0)) := by
  have hnodup1 : ((applyOp m op).map Prod.fst).Nodup := by
    rw [applyOp_keys]
    by_cases h : (posLookup m (posKey op)).isSome
    · rw [if_pos h]
      exact hkeys
    · rw [if_neg h]
      have hnone : posLookup m (posKey op) = none := Option.not_isSome_iff_eq_none.mp h
      have hnotin : posKey op ∉ m.map Prod.fst := by
        intro hmem
        obtain ⟨e, he, heq⟩ := List.mem_map.mp hmem
        exact posLookup_none _ m hnone e he heq
      simp [List.nodup_append, hkeys, hnotin]
  have hcr1 : ∀ e ∈ applyOp m op, (e.1 = t ++ "-" ++ b → e.2.ticker = t) ∧
      (e.2.ticker = t → e.1 = t ++ "-" ++ b) := by
    intro e he
    rcases mem_applyOp m op e he with ⟨hmem, _⟩ | ⟨p, hp, rfl⟩
    · exact hcr e hmem
    · have htick : (stepPos p op).ticker = p.ticker := stepPos_ticker p op
      rcases hp with hpm | rfl
      · constructor
        · intro hk
          rw [htick]
          exact (hcr _ hpm).1 hk
        · intro ht
          rw [htick] at ht
          exact (hcr _ hpm).2 ht
      · constructor
        · intro hk
          rw [htick]
          exact hinj hk
        · intro ht
          rw [htick] at ht
          have ht' : op.ticker = t := ht
          show posKey op = t ++ "-" ++ b
          rw [posKey, ht', hb ht']
      -- `p = initPos op` case needs `(initPos op).ticker = op.ticker`, which is `rfl`
  have hnn1 : ∀ e ∈ applyOp m op, 0 ≤ e.2.quantity := by
    intro e he
    rcases mem_applyOp m op e he with ⟨hmem, _⟩ | ⟨p, _, rfl⟩
    · exact hnn e hmem
    · exact stepPos_quantity_nonneg _ _
  have hk0cr : ∀ e ∈ m, e.2.ticker = t → e.1 = t ++ "-" ++ b := fun e he => (hcr e he).2
  have hk0cr1 : ∀ e ∈ applyOp m op, e.2.ticker = t → e.1 = t ++ "-" ++ b :=
    fun e he => (hcr1 e he).2
  have hents := entsQty_eq t (t ++ "-" ++ b) m hkeys hk0cr
  have hents1 := entsQty_eq t (t ++ "-" ++ b) (applyOp m op) hnodup1 hk0cr1
  by_cases hop : op.ticker = t
  · -- the operation concerns the tracked ticker
    have hkey : posKey op = t ++ "-" ++ b := by rw [posKey, hop, hb hop]
    have hcondt : (t = op.ticker) = True := by simp [hop]
    -- the previous quantity at the key, as seen by both sides
    obtain ⟨p, hlk, hpt, hpq, hprev⟩ :
        ∃ p, posLookup (applyOp m op) (t ++ "-" ++ b) = some (stepPos p op) ∧
          p.ticker = t ∧ 0 ≤ p.quantity ∧ entsQty t m = p.quantity := by
      cases hl : posLookup m (t ++ "-" ++ b) with
      | some p =>
        have hpm : (t ++ "-" ++ b, p) ∈ m := posLookup_mem _ _ m hl
        have hpt : p.ticker = t := (hcr _ hpm).1 rfl
        refine ⟨p, ?_, hpt, hnn _ hpm, ?_⟩
        · rw [applyOp, hkey, hl]
          simp only [Option.isSome_some, if_pos]
          rw [posLookup_map_update (t ++ "-" ++ b) (fun q => stepPos q op) m, hl,
            Option.map_some']
        · rw [hents, hl]
          simp [hpt]
      | none =>
        refine ⟨initPos op, ?_, hop, le_refl 0, ?_⟩
        · rw [applyOp, hkey, hl]
          simp only [Option.isSome_none, Bool.false_eq_true, if_false]
          rw [posLookup_map_update (t ++ "-" ++ b) (fun q => stepPos q op)
            (m ++ [(t ++ "-" ++ b, initPos op)]),
            posLookup_append_self _ _ m hl, Option.map_some']
        · rw [hents, hl]
          rfl
    have hstept : (stepPos p op).ticker = t := by rw [stepPos_ticker]; exact hpt
    have hents1' : entsQty t (applyOp m op) = (stepPos p op).quantity := by
      rw [hents1, hlk]
      simp [hstept]
    cases hty : op.type with
    | ADD =>
      have hinv : (fifoStep st op).2 t = st.2 t ++ [lotOf op] := by
        simp only [fifoStep, hty]
        simp [hop]
      have htr1 : (fifoStep st op).1 = st.1 := by
        simp only [fifoStep, hty]
      have hstepq : (stepPos p op).quantity = p.quantity + op.quantity :=
        stepPos_quantity_add p op hty hpq hq
      refine ⟨hnodup1, hcr1, hnn1, ?_, ?_, ?_⟩
      · rw [hinv]
        intro lo hlo
        rcases List.mem_append.mp hlo with hmem | hmem
        · exact hlots lo hmem
        · rw [List.mem_singleton.mp hmem]
          exact hq
      · rw [hents1', hstepq, hinv, invTotal_append, ← hcouple, hprev]
        rfl
      · rw [htr1, hinv, invTotal_append, if_pos ⟨rfl, hop⟩]
        have : (lotOf op).quantity = op.quantity := rfl
        rw [this]
        ring
    | REMOVE =>
      have hlotst : st.2 op.ticker = st.2 t := by rw [hop]
      obtain ⟨hs1, hs2, hs3, hs4⟩ := fifoConsume_spec op op.quantity (st.2 t) hq hlots
      have hinv : (fifoStep st op).2 t = (fifoConsume op op.quantity (st.2 t)).2 := by
        simp only [fifoStep, hty, hlotst]
        simp [hop]
      have htr1 : (fifoStep st op).1 =
          st.1 ++ (fifoConsume op op.quantity (st.2 t)).1 := by
        simp only [fifoStep, hty, hlotst]
      have hstepq : (stepPos p op).quantity = max (p.quantity - op.quantity) 0 :=
        stepPos_quantity_remove p op hty
      refine ⟨hnodup1, hcr1, hnn1, ?_, ?_, ?_⟩
      · rw [hinv]
        exact hs3
      · rw [hents1', hstepq, hinv, hs2, ← hprev, hcouple]
      · rw [htr1, hinv, tradesQty_append, if_neg (by simp [hty])]
        have hall : tradesQty t (fifoConsume op op.quantity (st.2 t)).1 =
            ((fifoConsume op op.quantity (st.2 t)).1.map (fun tr => tr.quantity)).sum := by
          refine tradesQty_all t _ ?_
          intro tr htr
          rw [hs4 tr htr, hop]
        rw [hall]
        linarith [hs1]
  · -- the operation concerns a different ticker
    have hkne : posKey op ≠ t ++ "-" ++ b := fun h => hop (hinj h)
    have hcondf : ¬ (t = op.ticker) := fun h => hop h.symm
    have hlk1 : posLookup (applyOp m op) (t ++ "-" ++ b) = posLookup m (t ++ "-" ++ b) := by
      rw [applyOp]
      by_cases h : (posLookup m (posKey op)).isSome
      · rw [if_pos h]
        exact posLookup_map_update_ne (posKey op) (t ++ "-" ++ b) (Ne.symm hkne)
          (fun q => stepPos q op) m
      · rw [if_neg h]
        rw [posLookup_map_update_ne (posKey op) (t ++ "-" ++ b) (Ne.symm hkne)
          (fun q => stepPos q op) (m ++ [(posKey op, initPos op)])]
        exact posLookup_append_ne (posKey op) (t ++ "-" ++ b) (Ne.symm hkne) (initPos op) m
    have hentseq : entsQty t (applyOp m op) = entsQty t m := by
      rw [hents1, hents, hlk1]
    cases hty : op.type with
    | ADD =>
      have hinv : (fifoStep st op).2 t = st.2 t := by
        simp only [fifoStep, hty]
        simp [hcondf]
      have htr1 : (fifoStep st op).1 = st.1 := by
        simp only [fifoStep, hty]
      refine ⟨hnodup1, hcr1, hnn1, ?_, ?_, ?_⟩
      · rw [hinv]
        exact hlots
      · rw [hentseq, hinv, hcouple]
      · rw [htr1, hinv, if_neg (fun hc => hop hc.2)]
        ring
    | REMOVE =>
      have hinv : (fifoStep st op).2 t = st.2 t := by
        simp only [fifoStep, hty]
        simp [hcondf]
      have htr1 : (fifoStep st op).1 =
          st.1 ++ (fifoConsume op op.quantity (st.2 op.ticker)).1 := by
        simp only [fifoStep, hty]
      refine ⟨hnodup1, hcr1, hnn1, ?_, ?_, ?_⟩
      · rw [hinv]
        exact hlots
      · rw [hentseq, hinv, hcouple]
      · rw [htr1, hinv, tradesQty_append, if_neg (by simp [hty])]
        have hzero : tradesQty t (fifoConsume op op.quantity (st.2 op.ticker)).1 = 0 := by
          refine tradesQty_none t _ ?_
          intro tr htr
          rw [fifoConsume_ticker op op.quantity (st.2 op.ticker) tr htr]
          exact hop
        rw [hzero]
        ring

/-- Replaying a whole operation list preserves the coupling and accumulates
the conservation equation. -/
theorem conservation_fold (t b : String) :
    ∀ (l : List Operation) (st : List ClosedTrade × Inventory) (m : PosMap),
      (∀ op ∈ l, 0 ≤ op.quantity) →
      (∀ op ∈ l, op.ticker = t → brokerKey op = b) →
      (∀ op ∈ l, posKey op = t ++ "-" ++ b → op.ticker = t) →
      ((m.map Prod.fst).Nodup) →
      (∀ e ∈ m, (e.1 = t ++ "-" ++ b → e.2.ticker = t) ∧
        (e.2.ticker = t → e.1 = t ++ "-" ++ b)) →
      (∀ e ∈ m, 0 ≤ e.2.quantity) →
      (∀ lo ∈ st.2 t, 0 ≤ lo.quantity) →
      entsQty t m = invTotal (st.2 t) →
      entsQty t (l.foldl applyOp m) = invTotal ((l.foldl fifoStep st).2 t) ∧
      tradesQty t (l.foldl fifoStep st).1 + invTotal ((l.foldl fifoStep st).2 t) =
        tradesQty t st.1 + invTotal (st.2 t) + addQty t l := by
  intro l
  induction l with
  | nil =>
    intro st m _ _ _ _ _ _ _ hcouple
    refine ⟨hcouple, ?_⟩
    simp [addQty]
  | cons op rest ih =>
    intro st m hq hb hinj hkeys hcr hnn hlots hcouple
    obtain ⟨k1, k2, k3, k4, k5, k6⟩ := conservation_step t b op st m
      (hq op (List.mem_cons_self _ _)) (hb op (List.mem_cons_self _ _))
      (hinj op (List.mem_cons_self _ _)) hkeys hcr hnn hlots hcouple
    obtain ⟨e1, e2⟩ := ih (fifoStep st op) (applyOp m op)
      (fun o ho => hq o (List.mem_cons_of_mem op ho))
      (fun o ho => hb o (List.mem_cons_of_mem op ho))
      (fun o ho => hinj o (List.mem_cons_of_mem op ho))
      k1 k2 k3 k4 k5
    rw [List.foldl_cons, List.foldl_cons]
    refine ⟨e1, ?_⟩
    rw [e2, addQty_cons]
    linarith [k6]

/-- One `applyOp` step preserves the position-map invariants: unique keys,
ticker-`t` entries exactly at key `t-b`, and non-negative quantities. -/
theorem applyOp_invariants (t b : String) (op : Operation) (m : PosMap)
    (hb : op.ticker = t → brokerKey op = b)
    (hinj : posKey op = t ++ "-" ++ b → op.ticker = t)
    (hkeys : (m.map Prod.fst).Nodup)
    (hcr : ∀ e ∈ m, (e.1 = t ++ "-" ++ b → e.2.ticker = t) ∧
      (e.2.ticker = t → e.1 = t ++ "-" ++ b))
    (hnn : ∀ e ∈ m, 0 ≤ e.2.quantity) :
    ((applyOp m op).map Prod.fst).Nodup ∧
    (∀ e ∈ applyOp m op, (e.1 = t ++ "-" ++ b → e.2.ticker = t) ∧
      (e.2.ticker = t → e.1 = t ++ "-" ++ b)) ∧
    (∀ e ∈ applyOp m op, 0 ≤ e.2.quantity) := by
  refine ⟨?_, ?_, ?_⟩
  · rw [applyOp_keys]
    by_cases h : (posLookup m (posKey op)).isSome
    · rw [if_pos h]
      exact hkeys
    · rw [if_neg h]
      have hnone : posLookup m (posKey op) = none := Option.not_isSome_iff_eq_none.mp h
      have hnotin : posKey op ∉ m.map Prod.fst := by
        intro hmem
        obtain ⟨e, he, heq⟩ := List.mem_map.mp hmem
        exact posLookup_none _ m hnone e he heq
      simp [List.nodup_append, hkeys, hnotin]
  · intro e he
    rcases mem_applyOp m op e he with ⟨hmem, _⟩ | ⟨p, hp, rfl⟩
    · exact hcr e hmem
    · have htick : (stepPos p op).ticker = p.ticker := stepPos_ticker p op
      rcases hp with hpm | rfl
      · constructor
        · intro hk
          rw [htick]
          exact (hcr _ hpm).1 hk
        · intro ht
          rw [htick] at ht
          exact (hcr _ hpm).2 ht
      · constructor
        · intro hk
          rw [htick]
          exact hinj hk
        · intro ht
          rw [htick] at ht
          have ht' : op.ticker = t := ht
          show posKey op = t ++ "-" ++ b
          rw [posKey, ht', hb ht']
  · intro e he
    rcases mem_applyOp m op e he with ⟨hmem, _⟩ | ⟨p, _, rfl⟩
    · exact hnn e hmem
    · exact stepPos_quantity_nonneg _ _

/-- Replaying a whole list preserves the position-map invariants. -/
theorem pos_invariants_fold (t b : String) :
    ∀ (l : List Operation) (m : PosMap),
      (∀ op ∈ l, op.ticker = t → brokerKey op = b) →
      (∀ op ∈ l, posKey op = t ++ "-" ++ b → op.ticker = t) →
      ((m.map Prod.fst).Nodup) →
      (∀ e ∈ m, (e.1 = t ++ "-" ++ b → e.2.ticker = t) ∧
        (e.2.ticker = t → e.1 = t ++ "-" ++ b)) →
      (∀ e ∈ m, 0 ≤ e.2.quantity) →
      ((l.foldl applyOp m).map Prod.fst).Nodup ∧
      (∀ e ∈ l.foldl applyOp m, (e.1 = t ++ "-" ++ b → e.2.ticker = t) ∧
        (e.2.ticker = t → e.1 = t ++ "-" ++ b)) ∧
      (∀ e ∈ l.foldl applyOp m, 0 ≤ e.2.quantity) := by
  intro l
  induction l with
  | nil =>
    intro m _ _ hkeys hcr hnn
    exact ⟨hkeys, hcr, hnn⟩
  | cons op rest ih =>
    intro m hb hinj hkeys hcr hnn
    obtain ⟨k1, k2, k3⟩ := applyOp_invariants t b op m
      (hb op (List.mem_cons_self _ _)) (hinj op (List.mem_cons_self _ _)) hkeys hcr hnn
    exact ih (applyOp m op)
      (fun o ho => hb o (List.mem_cons_of_mem op ho))
      (fun o ho => hinj o (List.mem_cons_of_mem op ho)) k1 k2 k3

/-- An operation whose key differs leaves a lookup unchanged. -/
theorem applyOp_posLookup_ne (m : PosMap) (op : Operation) (k : String)
    (hk : posKey op ≠ k) :
    posLookup (applyOp m op) k = posLookup m k := by
  rw [applyOp]
  by_cases h : (posLookup m (posKey op)).isSome
  · rw [if_pos h]
    exact posLookup_map_update_ne (posKey op) k (Ne.symm hk) (fun q => stepPos q op) m
  · rw [if_neg h]
    rw [posLookup_map_update_ne (posKey op) k (Ne.symm hk) (fun q => stepPos q op)
      (m ++ [(posKey op, initPos op)])]
    exact posLookup_append_ne (posKey op) k (Ne.symm hk) (initPos op) m

/-- Two maps agreeing at key `t-b` keep agreeing there when one replays the
whole list and the other only the ticker-`t` subsequence: operations of
other tickers never touch that key. -/
theorem pos_proj (t b : String) :
    ∀ (l : List Operation) (m m' : PosMap),
      (∀ op ∈ l, op.ticker = t → brokerKey op = b) →
      (∀ op ∈ l, posKey op = t ++ "-" ++ b → op.ticker = t) →
      posLookup m (t ++ "-" ++ b) = posLookup m' (t ++ "-" ++ b) →
      posLookup (l.foldl applyOp m) (t ++ "-" ++ b) =
        posLookup ((l.filter (fun o => o.ticker = t)).foldl applyOp m')
          (t ++ "-" ++ b) := by
  intro l
  induction l with
  | nil =>
    intro m m' _ _ hm
    exact hm
  | cons op rest ih =>
    intro m m' hb hinj hm
    rw [List.foldl_cons, List.filter_cons]
    by_cases hop : op.ticker = t
    · rw [if_pos (by simpa using hop), List.foldl_cons]
      refine ih (applyOp m op) (applyOp m' op)
        (fun o ho => hb o (List.mem_cons_of_mem op ho))
        (fun o ho => hinj o (List.mem_cons_of_mem op ho)) ?_
      have hkey : posKey op = t ++ "-" ++ b := by
        rw [posKey, hop, hb op (List.mem_cons_self _ _) hop]
      cases hl : posLookup m (t ++ "-" ++ b) with
      | some p =>
        have hl' : posLookup m' (t ++ "-" ++ b) = some p := by rw [← hm, hl]
        rw [applyOp, applyOp, hkey, hl, hl']
        simp only [Option.isSome_some, if_pos]
        rw [posLookup_map_update (t ++ "-" ++ b) (fun q => stepPos q op) m,
          posLookup_map_update (t ++ "-" ++ b) (fun q => stepPos q op) m', hl, hl']
      | none =>
        have hl' : posLookup m' (t ++ "-" ++ b) = none := by rw [← hm, hl]
        rw [applyOp, applyOp, hkey, hl, hl']
        simp only [Option.isSome_none, Bool.false_eq_true, if_false]
        rw [posLookup_map_update (t ++ "-" ++ b) (fun q => stepPos q op)
            (m ++ [(t ++ "-" ++ b, initPos op)]),
          posLookup_map_update (t ++ "-" ++ b) (fun q => stepPos q op)
            (m' ++ [(t ++ "-" ++ b, initPos op)]),
          posLookup_append_self _ _ m hl, posLookup_append_self _ _ m' hl']
    · rw [if_neg (by simpa using hop)]
      have hkne : posKey op ≠ t ++ "-" ++ b :=
        fun h => hop (hinj op (List.mem_cons_self _ _) h)
      refine ih (applyOp m op) m'
        (fun o ho => hb o (List.mem_cons_of_mem op ho))
        (fun o ho => hinj o (List.mem_cons_of_mem op ho)) ?_
      rw [applyOp_posLookup_ne m op _ hkne, hm]

/-- Two FIFO states agreeing on ticker `t` (queue and matched quantity) keep
agreeing when one replays the whole list and the other only the ticker-`t`
subsequence: other tickers' operations touch neither. -/
theorem fifo_proj (t : String) :
    ∀ (l : List Operation) (st st' : List ClosedTrade × Inventory),
      st.2 t = st'.2 t →
      tradesQty t st.1 = tradesQty t st'.1 →
      ((l.foldl fifoStep st).2 t =
        (((l.filter (fun o => o.ticker = t)).foldl fifoStep st').2 t)) ∧
      (tradesQty t (l.foldl fifoStep st).1 =
        tradesQty t ((l.filter (fun o => o.ticker = t)).foldl fifoStep st').1) := by
  intro l
  induction l with
  | nil =>
    intro st st' h1 h2
    exact ⟨h1, h2⟩
  | cons op rest ih =>
    intro st st' h1 h2
    rw [List.foldl_cons, List.filter_cons]
    by_cases hop : op.ticker = t
    · rw [if_pos (by simpa using hop), List.foldl_cons]
      subst hop
      refine ih (fifoStep st op) (fifoStep st' op) ?_ ?_
      · cases hty : op.type
        · simp only [fifoStep, hty]
          simp [h1]
        · simp only [fifoStep, hty]
          simp [h1]
      · cases hty : op.type
        · simp only [fifoStep, hty]
          exact h2
        · simp only [fifoStep, hty]
          rw [tradesQty_append, tradesQty_append, h1, h2]
    · rw [if_neg (by simpa using hop)]
      have hcondf : ¬ (t = op.ticker) := fun h => hop h.symm
      refine ih (fifoStep st op) st' ?_ ?_
      · cases hty : op.type
        · simp only [fifoStep, hty]
          rw [if_neg hcondf]
          exact h1
        · simp only [fifoStep, hty]
          rw [if_neg hcondf]
          exact h1
      · cases hty : op.type
        · simp only [fifoStep, hty]
          exact h2
        · simp only [fifoStep, hty]
          have hz : tradesQty t (fifoConsume op op.quantity (st.2 op.ticker)).1 = 0 :=
            tradesQty_none t _ (fun tr htr => by
              rw [fifoConsume_ticker op op.quantity (st.2 op.ticker) tr htr]
              exact hop)
          rw [tradesQty_append, hz, add_zero]
          exact h2

/-- Stable insertion keeps the list sorted by date. -/
theorem insertByDate_sorted (op : Operation) :
    ∀ l : List Operation, List.Pairwise (fun a b => a.date ≤ b.date) l →
      List.Pairwise (fun a b => a.date ≤ b.date) (insertByDate op l)
  | [], _ => List.pairwise_singleton _ op
  | o :: rest, hs => by
    obtain ⟨ho, hrest⟩ := List.pairwise_cons.mp hs
    rw [insertByDate]
    by_cases h : o.date < op.date
    · rw [if_pos h]
      refine List.pairwise_cons.mpr ⟨?_, insertByDate_sorted op rest hrest⟩
      intro x hx
      rcases List.mem_cons.mp ((insertByDate_perm op rest).mem_iff.mp hx) with rfl | hxr
      · exact le_of_lt h
      · exact ho x hxr
    · rw [if_neg h]
      refine List.pairwise_cons.mpr ⟨?_, hs⟩
      intro x hx
      rcases List.mem_cons.mp hx with rfl | hxr
      · exact not_lt.mp h
      · exact le_trans (not_lt.mp h) (ho x hxr)

/-- The replay sort produces a date-sorted list. -/
theorem sortByDate_sorted :
    ∀ l : List Operation, List.Pairwise (fun a b => a.date ≤ b.date) (sortByDate l)
  | [] => List.Pairwise.nil
  | op :: rest => insertByDate_sorted op (sortByDate rest) (sortByDate_sorted rest)

/-- Two permuted lists that are both strictly sorted by date are equal. -/
theorem eq_of_perm_of_dateStrictSorted :
    ∀ l₁ l₂ : List Operation, List.Perm l₁ l₂ →
      List.Pairwise (fun a b => a.date < b.date) l₁ →
      List.Pairwise (fun a b => a.date < b.date) l₂ → l₁ = l₂
  | [], l₂, hp, _, _ => hp.nil_eq
  | a :: r₁, [], hp, _, _ => by
    exact absurd hp.symm.nil_eq (by simp)
  | a :: r₁, c :: r₂, hp, hs₁, hs₂ => by
    obtain ⟨ha1, hr₁⟩ := List.pairwise_cons.mp hs₁
    obtain ⟨hc2, hr₂⟩ := List.pairwise_cons.mp hs₂
    have hac : a = c := by
      by_contra hne
      have ha2 : a ∈ r₂ := by
        rcases List.mem_cons.mp (hp.mem_iff.mp (List.mem_cons_self a r₁)) with h | h
        · exact absurd h hne
        · exact h
      have hc1 : c ∈ r₁ := by
        rcases List.mem_cons.mp (hp.symm.mem_iff.mp (List.mem_cons_self c r₂)) with h | h
        · exact absurd h.symm hne
        · exact h
      exact absurd (hc2 a ha2) (not_lt.mpr (le_of_lt (ha1 c hc1)))
    subst hac
    rw [eq_of_perm_of_dateStrictSorted r₁ r₂ hp.cons_inv hr₁ hr₂]

/-- Pre-restricting to the ticker does not change its ADD total. -/
theorem addQty_filter (t : String) (l : List Operation) :
    addQty t (l.filter (fun o => o.ticker = t)) = addQty t l := by
  rw [addQty, addQty, List.filter_filter]
  congr 2
  apply List.filter_congr
  intro o _
  by_cases h : o.ticker = t
  · simp [h]
  · simp [h]

/-- Claim C3 (amended): the two engines do NOT order the log by one shared
rule — the Position Deriver's subscription is timestamp-ascending
(positions.ts line 79) while the Realized P&L Engine's is
timestamp-descending (operations.ts line 65), and each then applies the same
stable date-ascending sort, so equal-date operations replay in opposite tie
orders across the engines.  This theorem therefore takes the two engines'
inputs as two arbitrary orderings (permutations) of the same ledger, which
covers both subscription orders.  The reconciliation equation
`sum(closed.quantity for ticker) + sum(derived Position.quantity for
ticker, before the 1e-6 active filter) = sum(ADD.quantity for ticker)`
then holds provided: the tracked ticker's operations carry pairwise
distinct dates (forced: a same-date ADD-then-REMOVE replays as
REMOVE-then-ADD in the FIFO engine, losing the match), every quantity is
non-negative, the ticker's operations share one broker key (forced by the
broker-mix counterexample), and no other operation's `ticker-broker`
string collides with the tracked key. -/
theorem C3_reconciliation (t b : String) (fifoOps posOps : List Operation)
    (hperm : List.Perm fifoOps posOps)
    (hq : ∀ op ∈ fifoOps, 0 ≤ op.quantity)
    (hb : ∀ op ∈ fifoOps, op.ticker = t → brokerKey op = b)
    (hinj : ∀ op ∈ fifoOps, posKey op = t ++ "-" ++ b → op.ticker = t)
    (hdates : List.Pairwise
      (fun o1 o2 => o1.ticker = t → o2.ticker = t → o1.date ≠ o2.date) fifoOps) :
    closedQty t fifoOps + posQtyAll t posOps = addQty t fifoOps := by
  have hmem1 : ∀ op ∈ sortByDate fifoOps, op ∈ fifoOps :=
    fun op h => (sortByDate_perm fifoOps).mem_iff.mp h
  have hmem2 : ∀ op ∈ sortByDate posOps, op ∈ fifoOps :=
    fun op h => hperm.mem_iff.mpr ((sortByDate_perm posOps).mem_iff.mp h)
  have hRsymm : ∀ {x y : Operation},
      (x.ticker = t → y.ticker = t → x.date ≠ y.date) →
      (y.ticker = t → x.ticker = t → y.date ≠ x.date) :=
    fun hxy hyt hxt => (hxy hxt hyt).symm
  -- both engines' ticker-`t` subsequences are strictly date-sorted
  have hd1 := ((sortByDate_perm fifoOps).pairwise_iff hRsymm).mpr hdates
  have hd2 := (((sortByDate_perm posOps).trans hperm.symm).pairwise_iff hRsymm).mpr hdates
  have hstr : ∀ l : List Operation,
      List.Pairwise (fun a c => a.date ≤ c.date) l →
      List.Pairwise (fun o1 o2 => o1.ticker = t → o2.ticker = t → o1.date ≠ o2.date) l →
      List.Pairwise (fun o1 o2 => o1.date < o2.date)
        (l.filter (fun o => o.ticker = t)) := by
    intro l hle hne
    have hle' : List.Pairwise (fun a c => a.date ≤ c.date)
        (l.filter (fun o => o.ticker = t)) := hle.sublist (List.filter_sublist l)
    have hne' : List.Pairwise
        (fun o1 o2 => o1.ticker = t → o2.ticker = t → o1.date ≠ o2.date)
        (l.filter (fun o => o.ticker = t)) := hne.sublist (List.filter_sublist l)
    refine List.Pairwise.imp_of_mem ?_ (hle'.and hne')
    intro o1 o2 h1 h2 hr
    have ht1 : o1.ticker = t := by simpa using (List.mem_filter.mp h1).2
    have ht2 : o2.ticker = t := by simpa using (List.mem_filter.mp h2).2
    exact lt_of_le_of_ne hr.1 (hr.2 ht1 ht2)
  have hstrict1 := hstr (sortByDate fifoOps) (sortByDate_sorted fifoOps) hd1
  have hstrict2 := hstr (sortByDate posOps) (sortByDate_sorted posOps) hd2
  -- hence the two subsequences coincide
  have hpft : List.Perm ((sortByDate fifoOps).filter (fun o => o.ticker = t))
      ((sortByDate posOps).filter (fun o => o.ticker = t)) :=
    (((sortByDate_perm fifoOps).filter _).trans (hperm.filter _)).trans
      (((sortByDate_perm posOps).filter _).symm)
  have hfteq : (sortByDate fifoOps).filter (fun o => o.ticker = t) =
      (sortByDate posOps).filter (fun o => o.ticker = t) :=
    eq_of_perm_of_dateStrictSorted _ _ hpft hstrict1 hstrict2
  -- FIFO engine reduces to its ticker-`t` subsequence
  have hclosed : closedQty t fifoOps =
      tradesQty t ((sortByDate fifoOps).foldl fifoStep ([], fun _ => [])).1 := by
    rw [closedQty, tradesQty]
    exact List.Perm.sum_eq (List.Perm.map _ (List.Perm.filter _ (sortTradesDesc_perm _)))
  have hfifo := (fifo_proj t (sortByDate fifoOps) ([], fun _ => [])
    ([], fun _ => []) rfl rfl).2
  -- Position Deriver reduces to its ticker-`t` subsequence
  have hpos : posQtyAll t posOps = entsQty t ((sortByDate posOps).foldl applyOp []) := rfl
  obtain ⟨n2, c2, _⟩ := pos_invariants_fold t b (sortByDate posOps) []
    (fun op h => hb op (hmem2 op h)) (fun op h => hinj op (hmem2 op h))
    (by simp) (by simp) (by simp)
  obtain ⟨n3, c3, _⟩ := pos_invariants_fold t b
    ((sortByDate posOps).filter (fun o => o.ticker = t)) []
    (fun op h => hb op (hmem2 op (List.mem_of_mem_filter h)))
    (fun op h => hinj op (hmem2 op (List.mem_of_mem_filter h)))
    (by simp) (by simp) (by simp)
  have hlook := pos_proj t b (sortByDate posOps) [] []
    (fun op h => hb op (hmem2 op h)) (fun op h => hinj op (hmem2 op h)) rfl
  have hentseq : entsQty t ((sortByDate posOps).foldl applyOp []) =
      entsQty t (((sortByDate posOps).filter (fun o => o.ticker = t)).foldl applyOp []) := by
    rw [entsQty_eq t (t ++ "-" ++ b) _ n2 (fun e he => (c2 e he).2),
      entsQty_eq t (t ++ "-" ++ b) _ n3 (fun e he => (c3 e he).2), hlook]
  -- conservation along the shared subsequence
  obtain ⟨e1, e2⟩ := conservation_fold t b
    ((sortByDate fifoOps).filter (fun o => o.ticker = t)) ([], fun _ => []) []
    (fun op h => hq op (hmem1 op (List.mem_of_mem_filter h)))
    (fun op h => hb op (hmem1 op (List.mem_of_mem_filter h)))
    (fun op h => hinj op (hmem1 op (List.mem_of_mem_filter h)))
    (by simp) (by simp) (by simp) (by simp) (by simp [entsQty, invTotal])
  have h0 : tradesQty t (([], fun _ => ([] : List Lot)) :
      List ClosedTrade × Inventory).1 = 0 := by
    simp [tradesQty]
  have h1 : invTotal ((([], fun _ => ([] : List Lot)) :
      List ClosedTrade × Inventory).2 t) = 0 := by
    simp [invTotal]
  rw [h0, h1] at e2
  have haddf : addQty t ((sortByDate fifoOps).filter (fun o => o.ticker = t)) =
      addQty t fifoOps := by
    rw [addQty_filter]
    exact List.Perm.sum_eq (List.Perm.map _ (List.Perm.filter _ (sortByDate_perm _)))
  rw [hclosed, hfifo, hpos, hentseq, ← hfteq, e1]
  rw [haddf] at e2
  linarith [e2]

/-- Witness for `C3_reconciliation`: the reference single-broker AAPL ledger
fed to the FIFO engine as-is and to the Position Deriver reversed (two
different subscription orders of the same ledger); 12 matched + 3 held = 15
added, all hypotheses discharged concretely. -/
theorem C3_reconciliation_witness :
    closedQty "AAPL" exLedger + posQtyAll "AAPL" exLedger.reverse =
      addQty "AAPL" exLedger :=
  C3_reconciliation "AAPL" "Unassigned" exLedger exLedger.reverse
    (List.reverse_perm exLedger).symm
    (by norm_num [exLedger, mkAdd, mkRemove])
    (by norm_num [exLedger, mkAdd, mkRemove, brokerKey])
    (by norm_num [exLedger, mkAdd, mkRemove, posKey, brokerKey])
    (by norm_num [exLedger, mkAdd, mkRemove])
